import Mathlib

/-!
# Verification of the UOR prime-chunk virtual machine

Shallow embedding of the core of the `uor-labs` repository:
the prime service (`primes.py`), the chunk codec (`chunks.py`),
the decoder (`decoder.py`), the stack interpreter and its JIT paths
(`vm.py`, `uor/jit/compiler.py`) and the segmented memory with its
mark-sweep collector (`uor/memory.py`).

Python's process-wide prime table `_PRIMES` / `_PRIME_IDX` is modelled
canonically: `get_prime(i)` is the `(i+1)`-st prime (`nthPrime i`) and
`_PRIME_IDX[p]` is the number of primes below `p` (`primeIdx p`).  On
every input reached by the claims the Python table coincides with this
canonical table, because all primes involved enter the table through
`get_prime` or through trial division below the sieve bound.
-/

namespace UOR

set_option maxRecDepth 100000

/-! ## Prime service (`primes.py`) -/

/-- Check that `n` has no divisor `m` with `d ≤ m` and `m * m ≤ n`,
scanning upward from `d` (fuel-bounded structural recursion, so that the
kernel can evaluate it cheaply). -/
def noDivisorAux : Nat → Nat → Nat → Bool
  | 0, _, _ => true
  | fuel+1, d, n =>
    if n < d * d then true
    else if n % d = 0 then false
    else noDivisorAux fuel (d+1) n

/-- Executable primality test by trial division up to the square root. -/
def isPrimeB (n : Nat) : Bool := decide (2 ≤ n) && noDivisorAux n 2 n

/-- Least `k' ≥ k` with `isPrimeB k'`, searching at most `fuel` candidates
(returns `0` on fuel exhaustion, which never happens in our uses by
Bertrand's postulate). -/
def nextPrimeAux : Nat → Nat → Nat
  | 0, _ => 0
  | fuel+1, k => if isPrimeB k then k else nextPrimeAux fuel (k+1)

/-- The least prime strictly greater than `p` (for `p ≥ 1`). -/
def nextPrime (p : Nat) : Nat := nextPrimeAux (p + 2) (p + 1)

/-- Iterate `nextPrime` with an accumulator (kernel-reduction friendly). -/
def nthPrimeAux : Nat → Nat → Nat
  | 0, p => p
  | n+1, p => nthPrimeAux n (nextPrime p)

/-- `get_prime(i)` of `primes.py`: the `(i+1)`-st prime, `nthPrime 0 = 2`. -/
def nthPrime (n : Nat) : Nat := nthPrimeAux n 2

/-- `_PRIME_IDX[p]`: the index of a prime `p` in the prime table, i.e. the
number of primes strictly below `p`. -/
def primeIdx (p : Nat) : Nat := ((List.range p).filter (fun q => isPrimeB q)).length

/-! ## Trial-division factorization (`primes.factor`) -/

/-- Strip all factors `p` from `x` (the inner `while x % p == 0` loop),
returning the multiplicity and the co-factor. -/
def divOutAux (p : Nat) : Nat → Nat → Nat × Nat
  | 0, x => (0, x)
  | fuel+1, x =>
    if x % p = 0 then
      let r := divOutAux p fuel (x / p)
      (r.1 + 1, r.2)
    else (0, x)

/-- The trial-division loop of `factor`: scan prime indices from `i`,
stopping as soon as `p * p > x`.  Returns the factor list found and the
remaining co-factor. -/
def factorAux : Nat → Nat → Nat → List (Nat × Nat) × Nat
  | 0, _, x => ([], x)
  | fuel+1, i, x =>
    if x < nthPrime i * nthPrime i then ([], x)
    else if x % nthPrime i = 0 then
      match divOutAux (nthPrime i) x x with
      | (c, x2) =>
        match factorAux fuel (i+1) x2 with
        | (rest, r) => ((nthPrime i, c) :: rest, r)
    else factorAux fuel (i+1) x

/-- `factor(x)` of `primes.py`: trial division by the prime table, the
residual co-factor greater than 1 appended with exponent 1. -/
def factor (x : Nat) : List (Nat × Nat) :=
  match factorAux (x+1) 0 x with
  | (fac, r) => if 1 < r then fac ++ [(r, 1)] else fac

/-- Product of a factorization list. -/
def prodOf (l : List (Nat × Nat)) : Nat := l.foldr (fun pe a => pe.1 ^ pe.2 * a) 1

/-- Well-formed factorization list: primes strictly ascending, positive
exponents. -/
def SortedFac (l : List (Nat × Nat)) : Prop :=
  l.Pairwise (fun a b => a.1 < b.1) ∧ ∀ pe ∈ l, Nat.Prime pe.1 ∧ 1 ≤ pe.2

/-! ## Chunk codec (`chunks.py`)

Opcode primes are the table entries at the fixed indices assigned at the
top of `chunks.py`. -/

def OP_PUSH : Nat := nthPrime 0
def OP_ADD : Nat := nthPrime 1
def OP_PRINT : Nat := nthPrime 2
def BLOCK_TAG : Nat := nthPrime 3
def NTT_TAG : Nat := nthPrime 4
def T_MOD : Nat := nthPrime 5
def OP_SUB : Nat := nthPrime 6
def OP_MUL : Nat := nthPrime 7
def OP_LOAD : Nat := nthPrime 8
def OP_STORE : Nat := nthPrime 9
def OP_JMP : Nat := nthPrime 10
def OP_JZ : Nat := nthPrime 11
def OP_JNZ : Nat := nthPrime 12
def NEG_FLAG : Nat := nthPrime 13
def OP_CALL : Nat := nthPrime 14
def OP_RET : Nat := nthPrime 15
def OP_ALLOC : Nat := nthPrime 16
def OP_FREE : Nat := nthPrime 17
def OP_INPUT : Nat := nthPrime 18
def OP_OUTPUT : Nat := nthPrime 19
def OP_NET_SEND : Nat := nthPrime 20
def OP_NET_RECV : Nat := nthPrime 21
def OP_THREAD_START : Nat := nthPrime 22
def OP_THREAD_JOIN : Nat := nthPrime 23
def OP_DIV : Nat := nthPrime 31
def OP_MOD : Nat := nthPrime 32
def OP_AND : Nat := nthPrime 33
def OP_OR : Nat := nthPrime 34
def OP_XOR : Nat := nthPrime 35
def OP_SHL : Nat := nthPrime 36
def OP_SHR : Nat := nthPrime 37
def OP_NEG : Nat := nthPrime 38
def OP_SYSCALL : Nat := nthPrime 43
def OP_INT : Nat := nthPrime 44
def OP_HALT : Nat := nthPrime 45
def OP_NOP : Nat := nthPrime 46
def NTT_ROOT : Nat := 2

/-- The checksum accumulator of `_attach_checksum`:
XOR over the factor list of `prime_index · exponent`. -/
def xorOf (fac : List (Nat × Nat)) : Nat :=
  fac.foldl (fun x pe => x ^^^ (primeIdx pe.1 * pe.2)) 0

/-- `_attach_checksum(raw, fac)`: multiply by the sixth power of the prime
indexed by the XOR digest. -/
def attachChecksum (raw : Nat) (fac : List (Nat × Nat)) : Nat :=
  raw * (nthPrime (xorOf fac)) ^ 6

def chunk_data (pos cp : Nat) : Nat :=
  if nthPrime pos = nthPrime cp then
    attachChecksum (nthPrime pos ^ 3) [(nthPrime pos, 3)]
  else
    attachChecksum (nthPrime pos * nthPrime cp ^ 2)
      [(nthPrime pos, 1), (nthPrime cp, 2)]

def chunk_push (v : Nat) : Nat :=
  attachChecksum (OP_PUSH ^ 4 * nthPrime v ^ 5) [(OP_PUSH, 4), (nthPrime v, 5)]

def chunk_add : Nat := attachChecksum (OP_ADD ^ 4) [(OP_ADD, 4)]

def chunk_print : Nat := attachChecksum (OP_PRINT ^ 4) [(OP_PRINT, 4)]

def chunk_load (addr : Nat) : Nat :=
  attachChecksum (OP_LOAD ^ 4 * nthPrime addr ^ 5) [(OP_LOAD, 4), (nthPrime addr, 5)]

def chunk_store (addr : Nat) : Nat :=
  attachChecksum (OP_STORE ^ 4 * nthPrime addr ^ 5) [(OP_STORE, 4), (nthPrime addr, 5)]

def chunk_block_start (n : Nat) : Nat :=
  attachChecksum (BLOCK_TAG ^ 7 * nthPrime n ^ 5) [(BLOCK_TAG, 7), (nthPrime n, 5)]

def chunk_ntt (n : Nat) : Nat :=
  attachChecksum (NTT_TAG ^ 4 * nthPrime n ^ 5) [(NTT_TAG, 4), (nthPrime n, 5)]

def chunk_div : Nat := attachChecksum (OP_DIV ^ 4) [(OP_DIV, 4)]

def chunk_input : Nat := attachChecksum (OP_INPUT ^ 4) [(OP_INPUT, 4)]

def chunk_halt : Nat := attachChecksum (OP_HALT ^ 4) [(OP_HALT, 4)]

/-! ## Decoder (`decoder.py`) -/

inductive DecodeErr where
  | duplicateChecksum
  | checksumMissing
  | checksumMismatch
  | missingLength
  deriving Repr, DecidableEq

/-- The checksum-peeling loop of `_decode_single`: scan the factor list,
taking the first exponent-`≥ 6` factor as the checksum (minus 6), allowing
`BLOCK_TAG⁷` past a found checksum, and rejecting any other second
exponent-`≥ 6` factor. -/
def scanChecksum : List (Nat × Nat) → Option Nat → List (Nat × Nat) →
    Except DecodeErr (Option Nat × List (Nat × Nat))
  | [], chk, data => .ok (chk, data)
  | (p, e) :: rest, chk, data =>
    if 6 ≤ e then
      match chk with
      | none =>
        if e - 6 ≠ 0 then scanChecksum rest (some p) (data ++ [(p, e - 6)])
        else scanChecksum rest (some p) data
      | some c =>
        if p = BLOCK_TAG ∧ e = 7 then scanChecksum rest (some c) (data ++ [(p, e)])
        else .error .duplicateChecksum
    else
      if e ≠ 0 then scanChecksum rest chk (data ++ [(p, e)])
      else scanChecksum rest chk data

/-- `_decode_single(chunk)`: factor, peel the checksum, verify the digest.
The instruction cache is semantically transparent and is not modelled. -/
def decodeSingle (chunk : Nat) : Except DecodeErr (List (Nat × Nat)) :=
  match scanChecksum (factor chunk) none [] with
  | .error e => .error e
  | .ok (none, _) => .error .checksumMissing
  | .ok (some c, data) =>
    if c ≠ nthPrime (xorOf data) then .error .checksumMismatch
    else .ok data

/-- Weight of an optional checksum prime in the chunk product. -/
def chkWeight : Option Nat → Nat
  | none => 1
  | some c => c ^ 6

/-! ## Decoded instructions and the framing decoder (`decoder.py`) -/

/-- `DecodedInstruction` of `decoder.py`: payload pairs plus optional framed
children. -/
inductive DecodedInstruction where
  | mk (data : List (Nat × Nat)) (inner : Option (List DecodedInstruction))

def DecodedInstruction.data : DecodedInstruction → List (Nat × Nat)
  | .mk d _ => d

def DecodedInstruction.inner : DecodedInstruction → Option (List DecodedInstruction)
  | .mk _ i => i

/-- The framing length of a decoded payload: the first exponent-5 prime other
than the tag, mapped through the prime index (`decoder.decode`).  A missing
length prime corresponds to Python's `StopIteration` escaping the generator,
which is fatal; it is modelled as `DecodeErr.missingLength`. -/
def findLength (tag : Nat) (data : List (Nat × Nat)) : Option Nat :=
  (data.find? (fun pe => pe.1 ≠ tag ∧ pe.2 = 5)).map (fun pe => primeIdx pe.1)

/-- The scan of `decode(chunks)` of `decoder.py`, fuel-bounded so that the
kernel can evaluate it (the fuel case is unreachable whenever
`fuel ≥ chunks.length`, which the wrapper `decode` guarantees): peel each
chunk, and own the next `N` decoded chunks as children of a BLOCK or NTT
framing header.  Python slicing `chunks[ip : ip + cnt]` silently truncates
when fewer than `cnt` chunks remain. -/
def decodeGo : Nat → List Nat → Except DecodeErr (List DecodedInstruction)
  | _, [] => .ok []
  | 0, _ :: _ => .error .missingLength
  | fuel+1, ck :: rest =>
    match decodeSingle ck with
    | .error e => .error e
    | .ok data =>
      if data.any (fun pe => pe.1 = BLOCK_TAG ∧ pe.2 = 7) then
        match findLength BLOCK_TAG data with
        | none => .error .missingLength
        | some cnt =>
          match decodeGo fuel (rest.take cnt) with
          | .error e => .error e
          | .ok inner =>
            match decodeGo fuel (rest.drop cnt) with
            | .error e => .error e
            | .ok tail => .ok (.mk data (some inner) :: tail)
      else if data.any (fun pe => pe.1 = NTT_TAG ∧ pe.2 = 4) then
        match findLength NTT_TAG data with
        | none => .error .missingLength
        | some cnt =>
          match decodeGo fuel (rest.take cnt) with
          | .error e => .error e
          | .ok inner =>
            match decodeGo fuel (rest.drop cnt) with
            | .error e => .error e
            | .ok tail => .ok (.mk data (some inner) :: tail)
      else
        match decodeGo fuel rest with
        | .error e => .error e
        | .ok tail => .ok (.mk data none :: tail)

/-- `decode(chunks)` of `decoder.py`. -/
def decode (chunks : List Nat) : Except DecodeErr (List DecodedInstruction) :=
  decodeGo chunks.length chunks

/-! ## Segmented memory (`uor/memory.py`)

Association lists play the role of the Python dictionaries; `segGet`
defaults to 0 like `dict.get(addr, 0)`. -/

def CODE_SIZE : Nat := 0x1000
def DATA_SIZE : Nat := 0x1000
def HEAP_SIZE : Nat := 0x1000
def STACK_SIZE : Nat := 0x1000
def PAGE_SIZE : Nat := 256
def CODE_START : Int := -(0x1000 : Int)
def DATA_START : Int := 0
def HEAP_START : Int := 0x1000
def STACK_START : Int := 0x2000
def MMIO_IN : Int := 0x3000
def MMIO_OUT : Int := 0x3001

def segGet (s : List (Int × Int)) (a : Int) : Int :=
  match s.find? (fun kv => kv.1 = a) with
  | some kv => kv.2
  | none => 0

def segDel (s : List (Int × Int)) (a : Int) : List (Int × Int) :=
  s.filter (fun kv => kv.1 ≠ a)

def segSet (s : List (Int × Int)) (a v : Int) : List (Int × Int) :=
  (a, v) :: segDel s a

/-- A heap allocation record `{pages, size, marked}`. -/
structure Allocation where
  pages : List Nat
  size : Nat
  marked : Bool
  deriving Repr, DecidableEq

/-- The mutable state of `SegmentedMemory` (default segment sizes; the code
segment itself carries the loaded chunk list). -/
structure SegmentedMemory where
  dataMap : List (Int × Int)
  heapMap : List (Int × Int)
  stackMap : List (Int × Int)
  code : List Nat
  freePages : List Nat
  allocations : List (Int × Allocation)
  deriving Repr, DecidableEq

def SegmentedMemory.init : SegmentedMemory :=
  { dataMap := [], heapMap := [], stackMap := [], code := [],
    freePages := List.range (HEAP_SIZE / PAGE_SIZE), allocations := [] }

/-- `_page_for(addr)`: page index of a heap address (floor division, as in
Python). -/
def pageFor (addr : Int) : Int := (addr - HEAP_START).fdiv (PAGE_SIZE : Int)

/-- `_alloc_for_addr(addr)`: the first allocation whose byte range contains
`addr`, or whose page list shifted by the start page hits the page of
`addr` (the shifted comparison `start_page + i == page_for(addr)` is
exactly what the source computes). -/
def allocForAddr (m : SegmentedMemory) (addr : Int) : Option Int :=
  (m.allocations.find? (fun sa =>
    (sa.1 ≤ addr ∧ addr < sa.1 + (sa.2.size : Int)) ∨
      sa.2.pages.any (fun i => pageFor sa.1 + (i : Int) = pageFor addr))).map (·.1)

/-- Insertion sort, standing in for Python's `sorted` over the free-page
set. -/
def insertSorted (x : Nat) : List Nat → List Nat
  | [] => [x]
  | y :: rest => if x ≤ y then x :: y :: rest else y :: insertSorted x rest

def sortNat (l : List Nat) : List Nat := l.foldr insertSorted []

def isConsecRun : List Nat → Nat → Bool
  | [], _ => true
  | x :: rest, expect => x == expect && isConsecRun rest (expect + 1)

/-- The first-fit window scan of `_try_allocate`: the first sorted free page
starting a run of `needed` consecutive free pages. -/
def findRun (needed : Nat) : List Nat → Option Nat
  | [] => none
  | x :: rest =>
    if needed ≤ (x :: rest).length ∧ isConsecRun ((x :: rest).take needed) x then some x
    else findRun needed rest

/-- `_try_allocate(size)`: claim a run of pages, zero the byte range, record
the allocation. -/
def tryAllocate (m : SegmentedMemory) (size : Nat) : Option (Int × SegmentedMemory) :=
  let needed := (size + PAGE_SIZE - 1) / PAGE_SIZE
  match findRun needed (sortNat m.freePages) with
  | none => none
  | some p0 =>
    let run := (List.range needed).map (fun i => p0 + i)
    let start : Int := HEAP_START + (p0 * PAGE_SIZE : Nat)
    let heap2 := (List.range size).foldl (fun h o => segSet h (start + (o : Int)) 0) m.heapMap
    some (start,
      { m with
        freePages := m.freePages.filter (fun q => ¬ q ∈ run),
        heapMap := heap2,
        allocations := m.allocations ++ [(start, ⟨run, size, false⟩)] })

/-- `free(addr)`: drop the allocation record, return its pages to the free
set, and clear every byte of those pages. -/
def memFree (m : SegmentedMemory) (addr : Int) : SegmentedMemory :=
  match m.allocations.find? (fun sa => sa.1 = addr) with
  | none => m
  | some sa =>
    let pages := sa.2.pages
    let heap2 := pages.foldl (fun h p =>
      (List.range PAGE_SIZE).foldl (fun h2 o =>
        segDel h2 (HEAP_START + (p * PAGE_SIZE : Nat) + (o : Int))) h) m.heapMap
    { m with
      allocations := m.allocations.filter (fun sb => sb.1 ≠ addr),
      freePages := m.freePages ++ pages,
      heapMap := heap2 }

/-! ## The virtual machine (`vm.py`)

The embedding covers the integer opcode handlers reached by the claims.
Handlers whose semantics live outside a shallow integer model are omitted
from the dispatch map and are never exercised here: the float opcodes
(FMUL, FDIV, F2I, I2F), HASH (SHA-256) and CHECKPOINT (wall clock), the
bitwise group (AND, OR, XOR, SHL, SHR use Python's two's-complement big
integers), and the extended opcodes whose prime constants do not appear in
`src/chunks.py` (DEBUG, ATOMIC, NOT, the comparison group and the
DUP/SWAP/ROT/DROP/OVER/PICK group).  The Python operand stack appends at
the end; it is modelled with the top at the head.  The profiler, debugger,
coherence validator and checkpoint policy hooks are `None` on a default
`VM()` and are not modelled. -/

inductive VMErr where
  | stackUnderflow (ip : Int)
  | stackOverflow (ip : Int)
  | divisionByZero (ip : Int)
  | segmentationFault (ip : Int)
  | invalidOpcode (ip : Int)
  | memoryAccess (ip : Int)
  | badData
  | dispatchKeyErr
  | missingOperand
  deriving Repr, DecidableEq

structure VM where
  stack : List Int
  mem : SegmentedMemory
  ip : Int
  callStack : List Int
  ioIn : List Int
  ioOut : List Int
  programLen : Nat
  deriving Repr, DecidableEq

def VM.fresh : VM :=
  { stack := [], mem := SegmentedMemory.init, ip := 0, callStack := [],
    ioIn := [], ioOut := [], programLen := 0 }

/-- `_pop` with the underflow check. -/
def popOne (vm : VM) : Except VMErr (Int × VM) :=
  match vm.stack with
  | [] => .error (.stackUnderflow (vm.ip - 1))
  | v :: rest => .ok (v, { vm with stack := rest })

/-- `_pop_two` with the underflow check: returns `(a, b)`, `b` the former
top of stack. -/
def popTwo (vm : VM) : Except VMErr (Int × Int × VM) :=
  match vm.stack with
  | b :: a :: rest => .ok (a, b, { vm with stack := rest })
  | _ => .error (.stackUnderflow (vm.ip - 1))

/-- `next(p for p, e in data if e == 4)`. -/
def findOp4 (data : List (Nat × Nat)) : Option Nat :=
  (data.find? (fun pe => pe.2 = 4)).map (·.1)

/-- `next(p for p, e in data if e == 5)`. -/
def findExp5 (data : List (Nat × Nat)) : Option Nat :=
  (data.find? (fun pe => pe.2 = 5)).map (·.1)

/-- `next(p for p, e in data if e == 5 and p != NEG_FLAG)`. -/
def findExp5NotNeg (data : List (Nat × Nat)) : Option Nat :=
  (data.find? (fun pe => pe.2 = 5 ∧ pe.1 ≠ NEG_FLAG)).map (·.1)

/-- `any(p == NEG_FLAG and e == 5 for p, e in data)`. -/
def hasNegFlag (data : List (Nat × Nat)) : Bool :=
  data.any (fun pe => pe.1 = NEG_FLAG ∧ pe.2 = 5)

/-- `VM._op_push`: push the operand prime's index, then check the stack
bound. -/
def opPush (data : List (Nat × Nat)) (vm : VM) : Except VMErr (VM × List String) :=
  match findExp5 data with
  | none => .error .missingOperand
  | some p =>
    let st := ((primeIdx p : Int)) :: vm.stack
    if STACK_SIZE < st.length then .error (.stackOverflow (vm.ip - 1))
    else .ok ({ vm with stack := st }, [])

def opAdd (_ : List (Nat × Nat)) (vm : VM) : Except VMErr (VM × List String) :=
  match popTwo vm with
  | .error e => .error e
  | .ok (a, b, vm2) => .ok ({ vm2 with stack := (a + b) :: vm2.stack }, [])

def opSub (_ : List (Nat × Nat)) (vm : VM) : Except VMErr (VM × List String) :=
  match popTwo vm with
  | .error e => .error e
  | .ok (a, b, vm2) => .ok ({ vm2 with stack := (a - b) :: vm2.stack }, [])

def opMul (_ : List (Nat × Nat)) (vm : VM) : Except VMErr (VM × List String) :=
  match popTwo vm with
  | .error e => .error e
  | .ok (a, b, vm2) => .ok ({ vm2 with stack := (a * b) :: vm2.stack }, [])

/-- `VM._op_div`: floor division as in Python; divisor zero raises with the
IP of the DIV instruction. -/
def opDiv (_ : List (Nat × Nat)) (vm : VM) : Except VMErr (VM × List String) :=
  match popTwo vm with
  | .error e => .error e
  | .ok (a, b, vm2) =>
    if b = 0 then .error (.divisionByZero (vm.ip - 1))
    else .ok ({ vm2 with stack := (a.fdiv b) :: vm2.stack }, [])

def opMod (_ : List (Nat × Nat)) (vm : VM) : Except VMErr (VM × List String) :=
  match popTwo vm with
  | .error e => .error e
  | .ok (a, b, vm2) =>
    if b = 0 then .error (.divisionByZero (vm.ip - 1))
    else .ok ({ vm2 with stack := (a.fmod b) :: vm2.stack }, [])

def opNeg (_ : List (Nat × Nat)) (vm : VM) : Except VMErr (VM × List String) :=
  match popOne vm with
  | .error e => .error e
  | .ok (v, vm2) => .ok ({ vm2 with stack := (-v) :: vm2.stack }, [])

def opPrint (_ : List (Nat × Nat)) (vm : VM) : Except VMErr (VM × List String) :=
  match popOne vm with
  | .error e => .error e
  | .ok (v, vm2) => .ok (vm2, [toString v])

def opJmp (data : List (Nat × Nat)) (vm : VM) : Except VMErr (VM × List String) :=
  match findExp5NotNeg data with
  | none => .error .missingOperand
  | some off =>
    let sign : Int := if hasNegFlag data then -1 else 1
    .ok ({ vm with ip := vm.ip + sign * (primeIdx off : Int) }, [])

def opJz (data : List (Nat × Nat)) (vm : VM) : Except VMErr (VM × List String) :=
  match findExp5NotNeg data with
  | none => .error .missingOperand
  | some off =>
    let sign : Int := if hasNegFlag data then -1 else 1
    match popOne vm with
    | .error e => .error e
    | .ok (v, vm2) =>
      if v = 0 then .ok ({ vm2 with ip := vm2.ip + sign * (primeIdx off : Int) }, [])
      else .ok (vm2, [])

def opJnz (data : List (Nat × Nat)) (vm : VM) : Except VMErr (VM × List String) :=
  match findExp5NotNeg data with
  | none => .error .missingOperand
  | some off =>
    let sign : Int := if hasNegFlag data then -1 else 1
    match popOne vm with
    | .error e => .error e
    | .ok (v, vm2) =>
      if v ≠ 0 then .ok ({ vm2 with ip := vm2.ip + sign * (primeIdx off : Int) }, [])
      else .ok (vm2, [])

def opCall (data : List (Nat × Nat)) (vm : VM) : Except VMErr (VM × List String) :=
  match findExp5NotNeg data with
  | none => .error .missingOperand
  | some off =>
    let sign : Int := if hasNegFlag data then -1 else 1
    .ok (
      { vm with
        callStack := (vm.ip :: vm.callStack),
        ip := vm.ip + sign * (primeIdx off : Int) }, [])

def opRet (_ : List (Nat × Nat)) (vm : VM) : Except VMErr (VM × List String) :=
  match vm.callStack with
  | [] => .ok (vm, [])
  | r :: rest => .ok ({ vm with ip := r, callStack := rest }, [])

/-- The mark-sweep collector `SegmentedMemory.collect` (see the GC section
below); forward declaration used by `opAlloc`.  The work-list loop is
fuel-bounded; `collectFuel` always suffices. -/
def collectFuel (m : SegmentedMemory) (roots : List Int) : Nat :=
  roots.length + (m.allocations.map (fun sa => 1 + sa.2.size)).sum + 1

/-- One work-list pass of `collect`: pop a pointer, resolve it through
`_alloc_for_addr`, mark, and push the allocation's heap cell values that
point back into the heap. -/
def markLoop (m : SegmentedMemory) : Nat → List Int → List Int → List Int
  | 0, _, marked => marked
  | _+1, [], marked => marked
  | fuel+1, ptr :: work, marked =>
    match allocForAddr m ptr with
    | none => markLoop m fuel work marked
    | some start =>
      if start ∈ marked then markLoop m fuel work marked
      else
        match m.allocations.find? (fun sa => sa.1 = start) with
        | none => markLoop m fuel work (start :: marked)
        | some sa =>
          let vals := (List.range sa.2.size).filterMap (fun o =>
            match (m.heapMap.find? (fun kv => kv.1 = start + (o : Int))) with
            | some kv =>
              if HEAP_START ≤ kv.2 ∧ kv.2 < STACK_START ∧
                  ¬ (allocForAddr m kv.2 = some start) then some kv.2 else none
            | none => none)
          markLoop m fuel (vals ++ work) (start :: marked)

/-- `SegmentedMemory.collect(vm)`: roots are the operand stack, the call
stack, and every value stored in the data, heap and stack segments; sweep
frees every unmarked allocation. -/
def collect (stack callStack : List Int) (m : SegmentedMemory) : SegmentedMemory :=
  let segVals := m.dataMap.map (·.2) ++ m.heapMap.map (·.2) ++ m.stackMap.map (·.2)
  let roots := stack ++ callStack ++ segVals
  let work := roots.filter (fun r => HEAP_START ≤ r ∧ r < STACK_START)
  let marked := markLoop m (collectFuel m roots) work []
  let survivors := m.allocations.map (fun sa =>
    if sa.1 ∈ marked then (sa.1, { sa.2 with marked := false }) else sa)
  let m2 := { m with allocations := survivors }
  (m.allocations.map (·.1)).foldl
    (fun acc start => if start ∈ marked then acc else memFree acc start) m2

/-- `VM._op_alloc` through `SegmentedMemory.allocate`: try, collect, retry,
and only then fail with a memory access error. -/
def opAlloc (data : List (Nat × Nat)) (vm : VM) : Except VMErr (VM × List String) :=
  match findExp5 data with
  | none => .error .missingOperand
  | some p =>
    let size := primeIdx p
    match tryAllocate vm.mem size with
    | some (addr, m2) => .ok ({ vm with mem := m2, stack := addr :: vm.stack }, [])
    | none =>
      let m2 := collect vm.stack vm.callStack vm.mem
      match tryAllocate m2 size with
      | some (addr, m3) => .ok ({ vm with mem := m3, stack := addr :: vm.stack }, [])
      | none => .error (.memoryAccess (vm.ip - 1))

def opFree (data : List (Nat × Nat)) (vm : VM) : Except VMErr (VM × List String) :=
  match findExp5 data with
  | none => .error .missingOperand
  | some p => .ok ({ vm with mem := memFree vm.mem (primeIdx p : Int) }, [])

/-- `SegmentedMemory.load` specialised to the owning VM (MMIO input pops the
VM's input queue). -/
def memLoad (vm : VM) (addr : Int) : Except Unit (Int × VM) :=
  if CODE_START ≤ addr ∧ addr < CODE_START + (CODE_SIZE : Int) then
    let idx := (addr - CODE_START).toNat
    match vm.mem.code.get? idx with
    | some v => .ok ((v : Int), vm)
    | none => .error ()
  else if DATA_START ≤ addr ∧ addr < HEAP_START then
    .ok (segGet vm.mem.dataMap addr, vm)
  else if HEAP_START ≤ addr ∧ addr < STACK_START then
    .ok (segGet vm.mem.heapMap addr, vm)
  else if STACK_START ≤ addr ∧ addr < STACK_START + (STACK_SIZE : Int) then
    .ok (segGet vm.mem.stackMap addr, vm)
  else if addr = MMIO_IN then
    match vm.ioIn with
    | [] => .ok (0, vm)
    | v :: rest => .ok (v, { vm with ioIn := rest })
  else .error ()

/-- `SegmentedMemory.store` specialised to the owning VM (MMIO output
appends to the output log; code and MMIO-in are not writable). -/
def memStore (vm : VM) (addr v : Int) : Except Unit VM :=
  if CODE_START ≤ addr ∧ addr < CODE_START + (CODE_SIZE : Int) then .error ()
  else if DATA_START ≤ addr ∧ addr < HEAP_START then
    .ok { vm with mem := { vm.mem with dataMap := segSet vm.mem.dataMap addr v } }
  else if HEAP_START ≤ addr ∧ addr < STACK_START then
    .ok { vm with mem := { vm.mem with heapMap := segSet vm.mem.heapMap addr v } }
  else if STACK_START ≤ addr ∧ addr < STACK_START + (STACK_SIZE : Int) then
    .ok { vm with mem := { vm.mem with stackMap := segSet vm.mem.stackMap addr v } }
  else if addr = MMIO_IN then .error ()
  else if addr = MMIO_OUT then .ok { vm with ioOut := vm.ioOut ++ [v] }
  else .error ()

def opLoad (data : List (Nat × Nat)) (vm : VM) : Except VMErr (VM × List String) :=
  match findExp5 data with
  | none => .error .missingOperand
  | some p =>
    match memLoad vm (primeIdx p : Int) with
    | .error _ => .error (.memoryAccess (vm.ip - 1))
    | .ok (v, vm2) => .ok ({ vm2 with stack := v :: vm2.stack }, [])

def opStore (data : List (Nat × Nat)) (vm : VM) : Except VMErr (VM × List String) :=
  match findExp5 data with
  | none => .error .missingOperand
  | some p =>
    match popOne vm with
    | .error e => .error e
    | .ok (v, vm2) =>
      match memStore vm2 (primeIdx p : Int) v with
      | .error _ => .error (.memoryAccess (vm.ip - 1))
      | .ok vm3 => .ok (vm3, [])

def opInput (_ : List (Nat × Nat)) (vm : VM) : Except VMErr (VM × List String) :=
  match vm.ioIn with
  | [] => .ok ({ vm with stack := 0 :: vm.stack }, [])
  | v :: rest => .ok ({ vm with stack := v :: vm.stack, ioIn := rest }, [])

def opOutput (_ : List (Nat × Nat)) (vm : VM) : Except VMErr (VM × List String) :=
  match popOne vm with
  | .error e => .error e
  | .ok (v, vm2) => .ok ({ vm2 with ioOut := vm2.ioOut ++ [v] }, [toString v])

def opHalt (_ : List (Nat × Nat)) (vm : VM) : Except VMErr (VM × List String) :=
  .ok ({ vm with ip := (vm.programLen : Int) }, [])

def opNop (_ : List (Nat × Nat)) (vm : VM) : Except VMErr (VM × List String) :=
  .ok (vm, [])

def opSyscall (_ : List (Nat × Nat)) (vm : VM) : Except VMErr (VM × List String) :=
  .ok ({ vm with stack := 0 :: vm.stack }, [])

def opInt (_ : List (Nat × Nat)) (vm : VM) : Except VMErr (VM × List String) :=
  .ok ({ vm with stack := 0 :: vm.stack }, [])

def opNetSend (_ : List (Nat × Nat)) (vm : VM) : Except VMErr (VM × List String) :=
  .ok (vm, [])

def opNetRecv (_ : List (Nat × Nat)) (vm : VM) : Except VMErr (VM × List String) :=
  .ok ({ vm with stack := 0 :: vm.stack }, [])

def opThreadStart (_ : List (Nat × Nat)) (vm : VM) : Except VMErr (VM × List String) :=
  .ok (vm, [])

def opThreadJoin (_ : List (Nat × Nat)) (vm : VM) : Except VMErr (VM × List String) :=
  .ok (vm, [])

/-- `VM._dispatch`, restricted to the embedded handlers (see the section
comment). -/
def dispatch (op : Nat) :
    Option (List (Nat × Nat) → VM → Except VMErr (VM × List String)) :=
  if op = OP_PUSH then some opPush
  else if op = OP_ADD then some opAdd
  else if op = OP_SUB then some opSub
  else if op = OP_MUL then some opMul
  else if op = OP_LOAD then some opLoad
  else if op = OP_STORE then some opStore
  else if op = OP_JMP then some opJmp
  else if op = OP_JZ then some opJz
  else if op = OP_JNZ then some opJnz
  else if op = OP_PRINT then some opPrint
  else if op = OP_CALL then some opCall
  else if op = OP_RET then some opRet
  else if op = OP_ALLOC then some opAlloc
  else if op = OP_FREE then some opFree
  else if op = OP_DIV then some opDiv
  else if op = OP_MOD then some opMod
  else if op = OP_NEG then some opNeg
  else if op = OP_SYSCALL then some opSyscall
  else if op = OP_INT then some opInt
  else if op = OP_HALT then some opHalt
  else if op = OP_NOP then some opNop
  else if op = OP_INPUT then some opInput
  else if op = OP_OUTPUT then some opOutput
  else if op = OP_NET_SEND then some opNetSend
  else if op = OP_NET_RECV then some opNetRecv
  else if op = OP_THREAD_START then some opThreadStart
  else if op = OP_THREAD_JOIN then some opThreadJoin
  else none

/-- Result of a (fuel-bounded) run: final state or error, with the output
strings yielded before termination. -/
inductive RunResult where
  | ok (vm : VM) (out : List String)
  | err (e : VMErr) (out : List String)
  deriving Repr, DecidableEq

def RunResult.prepend (out : List String) : RunResult → RunResult
  | .ok vm o => .ok vm (out ++ o)
  | .err e o => .err e (out ++ o)

def blockFraming (data : List (Nat × Nat)) : Bool :=
  data.any (fun pe => pe.1 = BLOCK_TAG ∧ pe.2 = 7)

def nttFraming (data : List (Nat × Nat)) : Bool :=
  data.any (fun pe => pe.1 = NTT_TAG ∧ pe.2 = 4)

/-- The dispatch loop of `VM.execute` (fuel-bounded; `none` means the fuel
ran out, which never happens under the fuel bounds used in the theorems).
BLOCK and NTT framed regions run their children on a fresh `VM`; the NTT
round-trip pre-pass of the source computes `_intt(_ntt(vec))` into a local
that is never read afterwards, so it has no effect on this state (the
transform itself is modelled separately as `ntt` / `intt`). -/
def runGo : Nat → List DecodedInstruction → VM → Option RunResult
  | 0, _, _ => none
  | fuel+1, prog, vm =>
    if vm.ip = (prog.length : Int) then some (.ok vm [])
    else if vm.ip < 0 ∨ (prog.length : Int) < vm.ip then
      some (.err (.segmentationFault vm.ip) [])
    else
      let instr := prog.getD vm.ip.toNat (.mk [] none)
      let vm1 := { vm with ip := vm.ip + 1 }
      if blockFraming instr.data ∨ nttFraming instr.data then
        let inner := instr.inner.getD []
        let sub : VM := { VM.fresh with programLen := inner.length }
        match runGo fuel inner sub with
        | none => none
        | some (.err e out) => some (.err e out)
        | some (.ok _ out) =>
          match runGo fuel prog vm1 with
          | none => none
          | some r => some (r.prepend out)
      else
        match findOp4 instr.data with
        | some op =>
          match dispatch op with
          | none => some (.err (.invalidOpcode (vm1.ip - 1)) [])
          | some h =>
            match h instr.data vm1 with
            | .error e => some (.err e [])
            | .ok (vm2, out) =>
              match runGo fuel prog vm2 with
              | none => none
              | some r => some (r.prepend out)
        | none =>
          match instr.data.find? (fun pe => pe.2 = 2 ∨ pe.2 = 3) with
          | none => some (.err .badData [])
          | some pe =>
            let out := [String.mk [Char.ofNat (primeIdx pe.1)]]
            match runGo fuel prog vm1 with
            | none => none
            | some r => some (r.prepend out)

/-- `VM.execute(program)` on a given machine: reset the IP, record the
program length, and run the dispatch loop. -/
def runExec (fuel : Nat) (prog : List DecodedInstruction) (vm : VM) : Option RunResult :=
  runGo fuel prog { vm with ip := 0, programLen := prog.length }

/-! ## The JIT paths (`uor/jit/compiler.py`) -/

/-- The body of the block built by `JITCompiler._compile_py`: run each
instruction through the regular handler found by its exponent-4 prime
(Python's `next(...)` raising `StopIteration` and `vm._dispatch[op]`
raising `KeyError` are modelled as distinct fatal errors), with the IP
advanced only after the whole block. -/
def jitPySteps : List DecodedInstruction → VM → Except VMErr (VM × List String)
  | [], vm => .ok (vm, [])
  | instr :: rest, vm =>
    match findOp4 instr.data with
    | none => .error .missingOperand
    | some op =>
      match dispatch op with
      | none => .error .dispatchKeyErr
      | some h =>
        match h instr.data vm with
        | .error e => .error e
        | .ok (vm2, out) =>
          match jitPySteps rest vm2 with
          | .error e => .error e
          | .ok (vm3, out2) => .ok (vm3, out ++ out2)

/-- The compiled block of `_compile_py`: run the handlers, then
`vm.ip += len(instructions)`. -/
def jitPyBlock (instrs : List DecodedInstruction) (vm : VM) :
    Except VMErr (VM × List String) :=
  match jitPySteps instrs vm with
  | .error e => .error e
  | .ok (vm2, out) => .ok ({ vm2 with ip := vm2.ip + (instrs.length : Int) }, out)

/-- The dispatch loop of `VM.execute` with a registered, unexpired JIT block
table: at an IP with a registered block the block runs in place of the
regular fetch-increment-dispatch path. -/
def runGoJit (compiled : Int → Option (List DecodedInstruction)) :
    Nat → List DecodedInstruction → VM → Option RunResult
  | 0, _, _ => none
  | fuel+1, prog, vm =>
    if vm.ip = (prog.length : Int) then some (.ok vm [])
    else if vm.ip < 0 ∨ (prog.length : Int) < vm.ip then
      some (.err (.segmentationFault vm.ip) [])
    else
      match compiled vm.ip with
      | some instrs =>
        match jitPyBlock instrs vm with
        | .error e => some (.err e [])
        | .ok (vm2, out) =>
          match runGoJit compiled fuel prog vm2 with
          | none => none
          | some r => some (r.prepend out)
      | none =>
        let instr := prog.getD vm.ip.toNat (.mk [] none)
        let vm1 := { vm with ip := vm.ip + 1 }
        if blockFraming instr.data ∨ nttFraming instr.data then
          let inner := instr.inner.getD []
          let sub : VM := { VM.fresh with programLen := inner.length }
          match runGo fuel inner sub with
          | none => none
          | some (.err e out) => some (.err e out)
          | some (.ok _ out) =>
            match runGoJit compiled fuel prog vm1 with
            | none => none
            | some r => some (r.prepend out)
        else
          match findOp4 instr.data with
          | some op =>
            match dispatch op with
            | none => some (.err (.invalidOpcode (vm1.ip - 1)) [])
            | some h =>
              match h instr.data vm1 with
              | .error e => some (.err e [])
              | .ok (vm2, out) =>
                match runGoJit compiled fuel prog vm2 with
                | none => none
                | some r => some (r.prepend out)
          | none =>
            match instr.data.find? (fun pe => pe.2 = 2 ∨ pe.2 = 3) with
            | none => some (.err .badData [])
            | some pe =>
              let out := [String.mk [Char.ofNat (primeIdx pe.1)]]
              match runGoJit compiled fuel prog vm1 with
              | none => none
              | some r => some (r.prepend out)

/-- `VM.execute` with registered JIT blocks. -/
def runExecJit (compiled : Int → Option (List DecodedInstruction)) (fuel : Nat)
    (prog : List DecodedInstruction) (vm : VM) : Option RunResult :=
  runGoJit compiled fuel prog { vm with ip := 0, programLen := prog.length }

/-! ## The spectral pre-pass (`VM.execute`, NTT framing branch)

`pow(b, k, m)` is `b ^ k % m`. -/

/-- `root = pow(NTT_ROOT, (T_MOD - 1) // n, T_MOD)`. -/
def nttRoot (n : Nat) : Nat := NTT_ROOT ^ ((T_MOD - 1) / n) % T_MOD

/-- The inner accumulation loop shared by `_ntt` and `_intt`. -/
def nttAcc (base n i : Nat) (values : List Nat) : Nat :=
  values.enum.foldl
    (fun acc jv => (acc + jv.2 * (base ^ ((i * jv.1) % n) % T_MOD)) % T_MOD) 0

/-- `_ntt(values)` with the given root. -/
def ntt (n root : Nat) (values : List Nat) : List Nat :=
  (List.range n).map (fun i => nttAcc root n i values)

/-- `_intt(values)` with the given root. -/
def intt (n root : Nat) (values : List Nat) : List Nat :=
  (List.range n).map (fun i =>
    nttAcc (root ^ (T_MOD - 2) % T_MOD) n i values * (n ^ (T_MOD - 2) % T_MOD) % T_MOD)

/-- `vec = [next((e2 for _, e2 in i.data if e2 > 0), 0) for i in inner]`. -/
def childVec (inner : List DecodedInstruction) : List Nat :=
  inner.map (fun i => (((i.data.find? (fun pe => 0 < pe.2)).map (·.2)).getD 0))

/-! ## The garbage-collection scenario for claim C6

Three successive one-byte allocations from a fresh memory; the states are
produced by the source-translated allocator itself. -/

def gcMem1 : SegmentedMemory :=
  (((tryAllocate SegmentedMemory.init 1).map (·.2)).getD SegmentedMemory.init)

def gcMem2 : SegmentedMemory :=
  (((tryAllocate gcMem1 1).map (·.2)).getD SegmentedMemory.init)

def gcMem3 : SegmentedMemory :=
  (((tryAllocate gcMem2 1).map (·.2)).getD SegmentedMemory.init)

/-! ## The stack-bound scenario for claim C7

`STACK_SIZE` PUSH instructions (operand prime 3, so each pushes the value
`prime_index(3) = 1`) followed by one INPUT instruction: the PUSH handler
checks the bound, the INPUT handler does not. -/

/-- The decoded instruction `PUSH 1`: opcode entry `(OP_PUSH, 4)` and
operand entry `(3, 5)`. -/
def pushOne : DecodedInstruction := .mk [(OP_PUSH, 4), (3, 5)] none

/-- The decoded instruction `INPUT`: opcode entry `(OP_INPUT, 4)`. -/
def inputInstr : DecodedInstruction := .mk [(OP_INPUT, 4)] none

/-- `STACK_SIZE` PUSH instructions followed by one INPUT instruction. -/
def overflowProg : List DecodedInstruction :=
  List.replicate STACK_SIZE pushOne ++ [inputInstr]

instance fact13prime : Fact (Nat.Prime 13) := ⟨by norm_num⟩

theorem noDivisorAux_spec : ∀ fuel d n, 2 ≤ d → n < (d + fuel) * (d + fuel) →
    (noDivisorAux fuel d n = true ↔ ∀ m, d ≤ m → m * m ≤ n → ¬ m ∣ n) := by
  intro fuel
  induction fuel with
  | zero =>
    intro d n hd hb
    simp only [noDivisorAux, true_iff]
    intro m hm hmm
    nlinarith
  | succ fuel ih =>
    intro d n hd hb
    by_cases hlt : n < d * d
    · simp only [noDivisorAux, if_pos hlt, true_iff]
      intro m hm hmm
      nlinarith
    · by_cases hmod : n % d = 0
      · simp only [noDivisorAux, if_neg hlt, if_pos hmod]
        constructor
        · intro hfalse; cases hfalse
        · intro hall
          exfalso
          refine hall d (Nat.le_refl d) (by omega) ?_
          exact Nat.dvd_of_mod_eq_zero hmod
      · have hrec : noDivisorAux (fuel+1) d n = noDivisorAux fuel (d+1) n := by
          simp [noDivisorAux, hlt, hmod]
        have hb2 : n < ((d+1) + fuel) * ((d+1) + fuel) := by
          have harith : (d+1) + fuel = (d + (fuel+1)) := by omega
          rw [harith]; exact hb
        rw [hrec, ih (d+1) n (by omega) hb2]
        constructor
        · intro hall m hm hmm hdvd
          rcases Nat.eq_or_lt_of_le hm with rfl | hgt
          · obtain ⟨c, rfl⟩ := hdvd
            simp [Nat.mul_mod_right] at hmod
          · exact hall m hgt hmm hdvd
        · intro hall m hm hmm hdvd
          exact hall m (by omega) hmm hdvd

theorem isPrimeB_iff (n : Nat) : isPrimeB n = true ↔ Nat.Prime n := by
  unfold isPrimeB
  rw [Bool.and_eq_true, decide_eq_true_iff,
    noDivisorAux_spec n 2 n (Nat.le_refl 2) (by nlinarith)]
  rw [Nat.prime_def_le_sqrt]
  constructor
  · rintro ⟨h2, hnd⟩
    refine ⟨h2, ?_⟩
    intro m hm hms
    exact hnd m hm (by
      have := (@Nat.le_sqrt m n).mp hms
      omega)
  · rintro ⟨h2, hnd⟩
    refine ⟨h2, ?_⟩
    intro m hm hmm
    exact hnd m hm ((@Nat.le_sqrt m n).mpr (by omega))

theorem nthPrimeAux_succ (n p : Nat) :
    nthPrimeAux (n+1) p = nextPrime (nthPrimeAux n p) := by
  induction n generalizing p with
  | zero => rfl
  | succ m ih => rw [nthPrimeAux, ih, nthPrimeAux]

theorem nthPrime_succ (n : Nat) : nthPrime (n+1) = nextPrime (nthPrime n) := by
  unfold nthPrime; exact nthPrimeAux_succ n 2

/-- Specification of the bounded search: if some candidate within the fuel
window is prime, the search returns the least prime `≥ k`. -/
theorem nextPrimeAux_spec (fuel k : Nat)
    (h : ∃ j, j < fuel ∧ isPrimeB (k + j) = true) :
    isPrimeB (nextPrimeAux fuel k) = true ∧ k ≤ nextPrimeAux fuel k ∧
      ∀ m, k ≤ m → m < nextPrimeAux fuel k → isPrimeB m = false := by
  induction fuel generalizing k with
  | zero =>
    obtain ⟨j, hj, _⟩ := h
    exact absurd hj (Nat.not_lt_zero j)
  | succ fuel ih =>
    by_cases hk : isPrimeB k = true
    · have hr : nextPrimeAux (fuel+1) k = k := by simp [nextPrimeAux, hk]
      rw [hr]
      refine ⟨hk, Nat.le_refl _, ?_⟩
      intro m hm hm2
      exact absurd (Nat.lt_of_le_of_lt hm hm2) (Nat.lt_irrefl k)
    · have hstep : nextPrimeAux (fuel+1) k = nextPrimeAux fuel (k+1) := by
        simp [nextPrimeAux, hk]
      have hex : ∃ j, j < fuel ∧ isPrimeB ((k+1) + j) = true := by
        obtain ⟨j, hj, hp⟩ := h
        match j with
        | 0 => exact absurd hp hk
        | j+1 =>
          refine ⟨j, Nat.lt_of_succ_lt_succ hj, ?_⟩
          have harith : (k+1) + j = k + (j+1) := by omega
          rw [harith]; exact hp
      obtain ⟨h1, h2, h3⟩ := ih (k+1) hex
      rw [hstep]
      refine ⟨h1, by omega, ?_⟩
      intro m hm hm2
      rcases Nat.eq_or_lt_of_le hm with rfl | hlt
      · exact Bool.eq_false_iff.mpr (fun hc => hk hc)
      · exact h3 m hlt hm2

/-- Bertrand's postulate gives the search enough fuel. -/
theorem nextPrime_spec (p : Nat) (hp : 1 ≤ p) :
    Nat.Prime (nextPrime p) ∧ p < nextPrime p ∧
      ∀ m, p < m → m < nextPrime p → ¬ Nat.Prime m := by
  obtain ⟨q, hq, hq1, hq2⟩ := Nat.bertrand p (by omega)
  have hex : ∃ j, j < p + 2 ∧ isPrimeB ((p+1) + j) = true := by
    refine ⟨q - (p+1), by omega, ?_⟩
    have harith : (p+1) + (q - (p+1)) = q := by omega
    rw [harith]; exact (isPrimeB_iff q).mpr hq
  obtain ⟨h1, h2, h3⟩ := nextPrimeAux_spec (p+2) (p+1) hex
  unfold nextPrime
  refine ⟨(isPrimeB_iff _).mp h1, by omega, ?_⟩
  intro m hm hm2 hmp
  have hfalse := h3 m (by omega) hm2
  rw [(isPrimeB_iff m).mpr hmp] at hfalse
  simp at hfalse

theorem nthPrime_pos_prime (n : Nat) :
    Nat.Prime (nthPrime n) ∧ 2 ≤ nthPrime n := by
  induction n with
  | zero => exact ⟨Nat.prime_two, Nat.le_refl 2⟩
  | succ m ih =>
    obtain ⟨hp, h2⟩ := ih
    obtain ⟨h1, hlt, _⟩ := nextPrime_spec (nthPrime m) (by omega)
    rw [nthPrime_succ]
    exact ⟨h1, by omega⟩

theorem nthPrime_prime (n : Nat) : Nat.Prime (nthPrime n) :=
  (nthPrime_pos_prime n).1

theorem nthPrime_lt_succ (n : Nat) : nthPrime n < nthPrime (n+1) := by
  obtain ⟨_, h2⟩ := nthPrime_pos_prime n
  obtain ⟨_, hlt, _⟩ := nextPrime_spec (nthPrime n) (by omega)
  rw [nthPrime_succ]; exact hlt

theorem nthPrime_strictMono : StrictMono nthPrime :=
  strictMono_nat_of_lt_succ nthPrime_lt_succ

theorem nthPrime_injective : Function.Injective nthPrime :=
  nthPrime_strictMono.injective

/-- No prime lies strictly between consecutive table entries. -/
theorem nthPrime_gap (n m : Nat) (h1 : nthPrime n < m) (h2 : m < nthPrime (n+1)) :
    ¬ Nat.Prime m := by
  obtain ⟨_, hp2⟩ := nthPrime_pos_prime n
  obtain ⟨_, _, h3⟩ := nextPrime_spec (nthPrime n) (by omega)
  exact h3 m h1 (by rwa [nthPrime_succ] at h2)

theorem primeIdx_succ (k : Nat) :
    primeIdx (k+1) = primeIdx k + (if isPrimeB k then 1 else 0) := by
  unfold primeIdx
  rw [List.range_succ, List.filter_append]
  by_cases h : isPrimeB k
  · simp [h]
  · simp [h]

/-- Counting primes is constant on prime-free intervals. -/
theorem primeIdx_const_of_no_prime (a b : Nat) (hab : a ≤ b)
    (h : ∀ m, a ≤ m → m < b → ¬ Nat.Prime m) :
    primeIdx b = primeIdx a := by
  induction b with
  | zero => cases Nat.le_zero.mp hab; rfl
  | succ b ih =>
    rcases Nat.eq_or_lt_of_le hab with rfl | hlt
    · rfl
    · have hb : a ≤ b := by omega
      have hnp : ¬ Nat.Prime b := h b hb (by omega)
      rw [primeIdx_succ]
      have hfb : isPrimeB b = false := by
        cases hc : isPrimeB b
        · rfl
        · exact absurd ((isPrimeB_iff b).mp hc) hnp
      rw [hfb, if_neg (by simp)]
      exact ih hb (fun m hm hm2 => h m hm (by omega))

/-- The reverse map is an exact inverse of the forward table. -/
theorem primeIdx_nthPrime (n : Nat) : primeIdx (nthPrime n) = n := by
  induction n with
  | zero =>
    show primeIdx 2 = 0
    decide
  | succ m ih =>
    have hgap : primeIdx (nthPrime (m+1)) = primeIdx (nthPrime m + 1) := by
      apply primeIdx_const_of_no_prime
      · have := nthPrime_lt_succ m; omega
      · intro k hk hk2
        exact nthPrime_gap m k (by omega) hk2
    have hstep : primeIdx (nthPrime m + 1) = primeIdx (nthPrime m) + 1 := by
      rw [primeIdx_succ, if_pos ((isPrimeB_iff _).mpr (nthPrime_prime m))]
    rw [hgap, hstep, ih]

theorem nthPrime_le_of_idx_le {a b : Nat} (h : a ≤ b) : nthPrime a ≤ nthPrime b :=
  nthPrime_strictMono.monotone h

theorem nthPrime_ne_of_idx_ne {a b : Nat} (h : a ≠ b) : nthPrime a ≠ nthPrime b :=
  fun hc => h (nthPrime_injective hc)

theorem nthPrime_ge (n : Nat) : n + 2 ≤ nthPrime n := by
  induction n with
  | zero => exact Nat.le_refl 2
  | succ m ih => have := nthPrime_lt_succ m; omega

/-- Every prime below a table entry is an earlier table entry. -/
theorem prime_lt_nthPrime {q i : Nat} (hq : Nat.Prime q) (h : q < nthPrime i) :
    ∃ j, j < i ∧ q = nthPrime j := by
  induction i with
  | zero =>
    have h2 := hq.two_le
    have : nthPrime 0 = 2 := rfl
    omega
  | succ m ih =>
    rcases Nat.lt_trichotomy q (nthPrime m) with hlt | heq | hgt
    · obtain ⟨j, hj, hje⟩ := ih hlt
      exact ⟨j, by omega, hje⟩
    · exact ⟨m, by omega, heq⟩
    · exact absurd hq (nthPrime_gap m q hgt h)

theorem factor_eq_def (x : Nat) :
    factor x = if 1 < (factorAux (x+1) 0 x).2 then
      (factorAux (x+1) 0 x).1 ++ [((factorAux (x+1) 0 x).2, 1)]
    else (factorAux (x+1) 0 x).1 := rfl

theorem prodOf_cons (p e : Nat) (l : List (Nat × Nat)) :
    prodOf ((p, e) :: l) = p ^ e * prodOf l := rfl

theorem divOutAux_spec (p : Nat) (hp : 2 ≤ p) :
    ∀ fuel x, 1 ≤ x → x ≤ fuel →
      x = p ^ (divOutAux p fuel x).1 * (divOutAux p fuel x).2 ∧
        ¬ p ∣ (divOutAux p fuel x).2 ∧ 1 ≤ (divOutAux p fuel x).2 := by
  intro fuel
  induction fuel with
  | zero => intro x hx hf; omega
  | succ fuel ih =>
    intro x hx hf
    by_cases hdvd : x % p = 0
    · have hpd : p ∣ x := Nat.dvd_of_mod_eq_zero hdvd
      have hxp1 : 1 ≤ x / p := Nat.one_le_div_iff (by omega) |>.mpr (Nat.le_of_dvd (by omega) hpd)
      have hxpf : x / p ≤ fuel := by
        have : x / p < x := Nat.div_lt_self (by omega) (by omega)
        omega
      obtain ⟨h1, h2, h3⟩ := ih (x / p) hxp1 hxpf
      have hr : divOutAux p (fuel+1) x =
          ((divOutAux p fuel (x / p)).1 + 1, (divOutAux p fuel (x / p)).2) := by
        simp [divOutAux, hdvd]
      rw [hr]
      refine ⟨?_, h2, h3⟩
      have hx2 : x = p * (x / p) := (Nat.mul_div_cancel' hpd).symm
      calc x = p * (x / p) := hx2
      _ = p * (p ^ (divOutAux p fuel (x / p)).1 * (divOutAux p fuel (x / p)).2) := by rw [← h1]
      _ = p ^ ((divOutAux p fuel (x / p)).1 + 1) * (divOutAux p fuel (x / p)).2 := by ring
    · have hr : divOutAux p (fuel+1) x = (0, x) := by simp [divOutAux, hdvd]
      rw [hr]
      refine ⟨by simp, ?_, hx⟩
      intro hc
      obtain ⟨c, rfl⟩ := hc
      simp [Nat.mul_mod_right] at hdvd

/-- Every prime occurs in the table. -/
theorem prime_eq_nthPrime {q : Nat} (hq : Nat.Prime q) : ∃ k, q = nthPrime k := by
  obtain ⟨j, _, hj⟩ := @prime_lt_nthPrime q q hq (by have := nthPrime_ge q; omega)
  exact ⟨j, hj⟩

/-- A number below the square of the scan front, with no prime divisor below
the scan front, is 1 or a prime of index at least the front. -/
theorem residual_prime {i x : Nat} (hx : 1 ≤ x) (hbound : x < nthPrime i * nthPrime i)
    (hnd : ∀ j, j < i → ¬ nthPrime j ∣ x) :
    x = 1 ∨ ∃ k, i ≤ k ∧ x = nthPrime k := by
  rcases Nat.eq_or_lt_of_le hx with h1 | h2
  · exact Or.inl h1.symm
  · right
    have hxp : Nat.Prime x := by
      by_contra hnp
      have hq := Nat.minFac_prime (by omega : x ≠ 1)
      have hqsq : x.minFac ^ 2 ≤ x := Nat.minFac_sq_le_self (by omega) hnp
      have hqlt : x.minFac < nthPrime i := by
        nlinarith [Nat.minFac_dvd x, sq_nonneg (x.minFac)]
      obtain ⟨j, hj, hje⟩ := prime_lt_nthPrime hq hqlt
      exact hnd j hj (hje ▸ Nat.minFac_dvd x)
    obtain ⟨k, hk⟩ := prime_eq_nthPrime hxp
    refine ⟨k, ?_, hk⟩
    by_contra hik
    exact hnd k (by omega) (hk ▸ Nat.dvd_refl x)

theorem factorAux_spec : ∀ fuel i x, 1 ≤ x → x < nthPrime (i + fuel) * nthPrime (i + fuel) →
    (∀ j, j < i → ¬ nthPrime j ∣ x) →
    prodOf (factorAux fuel i x).1 * (factorAux fuel i x).2 = x ∧
    ((factorAux fuel i x).2 = 1 ∨ ∃ k, i ≤ k ∧ (factorAux fuel i x).2 = nthPrime k) ∧
    (∀ pe ∈ (factorAux fuel i x).1, ∃ j, i ≤ j ∧ pe.1 = nthPrime j ∧ 1 ≤ pe.2) ∧
    (factorAux fuel i x).1.Pairwise (fun a b => a.1 < b.1) ∧
    ((factorAux fuel i x).2 = 1 ∨ ∀ pe ∈ (factorAux fuel i x).1, pe.1 < (factorAux fuel i x).2) := by
  intro fuel
  induction fuel with
  | zero =>
    intro i x hx hbound hnd
    have hres := residual_prime hx (by simpa using hbound) hnd
    refine ⟨by simp [factorAux, prodOf], ?_, by simp [factorAux], by simp [factorAux], ?_⟩
    · simpa [factorAux] using hres
    · rcases hres with h1 | _
      · exact Or.inl (by simpa [factorAux] using h1)
      · exact Or.inr (by simp [factorAux])
  | succ fuel ih =>
    intro i x hx hbound hnd
    by_cases hbreak : x < nthPrime i * nthPrime i
    · have hr : factorAux (fuel+1) i x = ([], x) := by
        simp [factorAux, hbreak]
      have hres := residual_prime hx hbreak hnd
      rw [hr]
      refine ⟨by simp [prodOf], ?_, by simp, by simp, ?_⟩
      · simpa using hres
      · rcases hres with h1 | _
        · exact Or.inl h1
        · exact Or.inr (by simp)
    · by_cases hdvd : x % nthPrime i = 0
      · -- divide out nthPrime i, recurse at index i+1
        have hp2 : 2 ≤ nthPrime i := (nthPrime_pos_prime i).2
        obtain ⟨hd1, hd2, hd3⟩ := divOutAux_spec (nthPrime i) hp2 x x hx (Nat.le_refl x)
        have hr : factorAux (fuel+1) i x =
            ((nthPrime i, (divOutAux (nthPrime i) x x).1) ::
              (factorAux fuel (i+1) (divOutAux (nthPrime i) x x).2).1,
             (factorAux fuel (i+1) (divOutAux (nthPrime i) x x).2).2) := by
          rw [factorAux, if_neg hbreak, if_pos hdvd]
        generalize hgc : (divOutAux (nthPrime i) x x).1 = c at *
        generalize hgx : (divOutAux (nthPrime i) x x).2 = x2 at *
        have hbound2 : x2 < nthPrime ((i+1) + fuel) * nthPrime ((i+1) + fuel) := by
          have harith : (i+1) + fuel = i + (fuel+1) := by omega
          have hpc : 0 < nthPrime i ^ c := pow_pos (by omega) c
          have hx2le : x2 ≤ x := by nlinarith [hd3]
          rw [harith]; omega
        have hnd2 : ∀ j, j < i + 1 → ¬ nthPrime j ∣ x2 := by
          intro j hj hdj
          rcases Nat.lt_or_ge j i with hji | hji
          · exact hnd j hji (hdj.trans ⟨nthPrime i ^ c, by rw [hd1]; ring⟩)
          · have hje : j = i := by omega
            exact hd2 (hje ▸ hdj)
        obtain ⟨g1, g2, g3, g4, g5⟩ := ih (i+1) x2 hd3 hbound2 hnd2
        have hcpos : 1 ≤ c := by
          by_contra hc0
          have hc00 : c = 0 := by omega
          rw [hc00, pow_zero, one_mul] at hd1
          exact hd2 (hd1 ▸ Nat.dvd_of_mod_eq_zero hdvd)
        rw [hr]
        refine ⟨?_, ?_, ?_, ?_, ?_⟩
        · rw [prodOf_cons]
          calc nthPrime i ^ c * prodOf (factorAux fuel (i+1) x2).1 * (factorAux fuel (i+1) x2).2
              = nthPrime i ^ c *
                (prodOf (factorAux fuel (i+1) x2).1 * (factorAux fuel (i+1) x2).2) := by ring
          _ = nthPrime i ^ c * x2 := by rw [g1]
          _ = x := hd1.symm
        · rcases g2 with h1 | ⟨k, hk, hke⟩
          · exact Or.inl h1
          · exact Or.inr ⟨k, by omega, hke⟩
        · intro pe hpe
          rcases List.mem_cons.mp hpe with rfl | hmem
          · exact ⟨i, Nat.le_refl i, rfl, hcpos⟩
          · obtain ⟨j, hj, hje, hec⟩ := g3 pe hmem
            exact ⟨j, by omega, hje, hec⟩
        · refine List.Pairwise.cons ?_ g4
          intro pe hpe
          obtain ⟨j, hj, hje, _⟩ := g3 pe hpe
          rw [hje]
          exact nthPrime_strictMono (by omega)
        · rcases g2 with h1 | ⟨k, hk, hke⟩
          · exact Or.inl h1
          · refine Or.inr ?_
            intro pe hpe
            rcases List.mem_cons.mp hpe with rfl | hmem
            · rw [hke]; exact nthPrime_strictMono (by omega)
            · rcases g5 with h1 | h5
              · exfalso
                have h2k := (nthPrime_pos_prime k).2
                omega
              · exact h5 pe hmem
      · -- nthPrime i does not divide x, recurse at index i+1
        have hr : factorAux (fuel+1) i x = factorAux fuel (i+1) x := by
          rw [factorAux, if_neg hbreak, if_neg hdvd]
        have hbound2 : x < nthPrime ((i+1) + fuel) * nthPrime ((i+1) + fuel) := by
          have harith : (i+1) + fuel = i + (fuel+1) := by omega
          rw [harith]; exact hbound
        have hnd2 : ∀ j, j < i + 1 → ¬ nthPrime j ∣ x := by
          intro j hj hdj
          rcases Nat.lt_or_ge j i with hji | hji
          · exact hnd j hji hdj
          · have hji2 : j = i := by omega
            subst hji2
            obtain ⟨m, rfl⟩ := hdj
            simp [Nat.mul_mod_right] at hdvd
        obtain ⟨g1, g2, g3, g4, g5⟩ := ih (i+1) x hx hbound2 hnd2
        rw [hr]
        refine ⟨g1, ?_, ?_, g4, g5⟩
        · rcases g2 with h1 | ⟨k, hk, hke⟩
          · exact Or.inl h1
          · exact Or.inr ⟨k, by omega, hke⟩
        · intro pe hpe
          obtain ⟨j, hj, hje, hec⟩ := g3 pe hpe
          exact ⟨j, by omega, hje, hec⟩

theorem prodOf_append (l1 l2 : List (Nat × Nat)) :
    prodOf (l1 ++ l2) = prodOf l1 * prodOf l2 := by
  induction l1 with
  | nil => simp [prodOf]
  | cons a l ihl =>
    show a.1 ^ a.2 * prodOf (l ++ l2) = a.1 ^ a.2 * prodOf l * prodOf l2
    rw [ihl]; ring

/-- `factor` returns a sorted factorization whose product is the input. -/
theorem factor_spec (x : Nat) (hx : 1 ≤ x) :
    SortedFac (factor x) ∧ prodOf (factor x) = x := by
  have hbound : x < nthPrime (0 + (x+1)) * nthPrime (0 + (x+1)) := by
    have h1 := nthPrime_ge (0 + (x+1))
    nlinarith
  obtain ⟨g1, g2, g3, g4, g5⟩ := factorAux_spec (x+1) 0 x hx hbound (by omega)
  rw [factor_eq_def]
  rcases g2 with h1 | ⟨k, _, hke⟩
  · rw [h1, if_neg (by omega)]
    refine ⟨⟨g4, fun pe hpe => ?_⟩, ?_⟩
    · obtain ⟨j, _, hje, hec⟩ := g3 pe hpe
      exact ⟨hje ▸ nthPrime_prime j, hec⟩
    · have hg := g1; rw [h1, Nat.mul_one] at hg; exact hg
  · have hrp : Nat.Prime (factorAux (x+1) 0 x).2 := hke ▸ nthPrime_prime k
    have hr2 : 1 < (factorAux (x+1) 0 x).2 := hrp.one_lt
    rw [if_pos hr2]
    have hlt : ∀ pe ∈ (factorAux (x+1) 0 x).1, pe.1 < (factorAux (x+1) 0 x).2 := by
      rcases g5 with h1 | h5
      · omega
      · exact h5
    refine ⟨⟨?_, ?_⟩, ?_⟩
    · rw [List.pairwise_append]
      refine ⟨g4, List.pairwise_singleton _ _, ?_⟩
      intro a ha b hb
      rw [List.mem_singleton.mp hb]
      exact hlt a ha
    · intro pe hpe
      rcases List.mem_append.mp hpe with hmem | hmem
      · obtain ⟨j, _, hje, hec⟩ := g3 pe hmem
        exact ⟨hje ▸ nthPrime_prime j, hec⟩
      · rw [List.mem_singleton.mp hmem]
        exact ⟨hrp, Nat.le_refl 1⟩
    · rw [prodOf_append]
      simp only [prodOf, List.foldr_cons, List.foldr_nil, pow_one, Nat.mul_one]
      exact g1

theorem prodOf_pos (l : List (Nat × Nat)) (hl : ∀ pe ∈ l, Nat.Prime pe.1) :
    1 ≤ prodOf l := by
  induction l with
  | nil => exact Nat.le_refl 1
  | cons a t ih =>
    have ha := (hl a (List.mem_cons_self a t)).two_le
    have ht := ih (fun pe hpe => hl pe (List.mem_cons_of_mem a hpe))
    have hpow : 1 ≤ a.1 ^ a.2 := Nat.one_le_pow _ _ (by omega)
    show 1 ≤ a.1 ^ a.2 * prodOf t
    exact Nat.one_le_iff_ne_zero.mpr (Nat.mul_ne_zero (by omega) (by omega))

theorem prime_dvd_prodOf {p : Nat} (hp : Nat.Prime p) :
    ∀ l : List (Nat × Nat), (∀ pe ∈ l, Nat.Prime pe.1) →
      p ∣ prodOf l → ∃ pe ∈ l, p = pe.1 := by
  intro l
  induction l with
  | nil =>
    intro _ hdvd
    exact absurd (Nat.dvd_one.mp hdvd) (Nat.Prime.ne_one hp)
  | cons a t ih =>
    intro hl hdvd
    have hdd : p ∣ a.1 ^ a.2 * prodOf t := hdvd
    rcases (Nat.Prime.dvd_mul hp).mp hdd with hleft | hright
    · have hpa : p ∣ a.1 := hp.dvd_of_dvd_pow hleft
      have ha := hl a (List.mem_cons_self a t)
      exact ⟨a, List.mem_cons_self a t, (Nat.prime_dvd_prime_iff_eq hp ha).mp hpa⟩
    · obtain ⟨pe, hpe, hppe⟩ := ih (fun pe hpe => hl pe (List.mem_cons_of_mem a hpe)) hright
      exact ⟨pe, List.mem_cons_of_mem a hpe, hppe⟩

/-- A prime smaller than every prime of a well-formed factor list does not
divide its product. -/
theorem not_dvd_prodOf {p : Nat} (hp : Nat.Prime p) (l : List (Nat × Nat))
    (hl : ∀ pe ∈ l, Nat.Prime pe.1) (hlt : ∀ pe ∈ l, p < pe.1) :
    ¬ p ∣ prodOf l := by
  intro hdvd
  obtain ⟨pe, hpe, hppe⟩ := prime_dvd_prodOf hp l hl hdvd
  have := hlt pe hpe
  omega

/-- Uniqueness of sorted factorizations. -/
theorem sortedFac_unique : ∀ l1 l2 : List (Nat × Nat),
    SortedFac l1 → SortedFac l2 → prodOf l1 = prodOf l2 → l1 = l2 := by
  intro l1
  induction l1 with
  | nil =>
    intro l2 _ h2 hprod
    cases l2 with
    | nil => rfl
    | cons b t2 =>
      exfalso
      have hb := (h2.2 b (List.mem_cons_self b t2)).1.two_le
      have he := (h2.2 b (List.mem_cons_self b t2)).2
      have hpow : 2 ≤ b.1 ^ b.2 := by
        calc 2 ≤ b.1 := hb
        _ = b.1 ^ 1 := (pow_one b.1).symm
        _ ≤ b.1 ^ b.2 := Nat.pow_le_pow_right (by omega) he
      have ht2 : 1 ≤ prodOf t2 :=
        prodOf_pos t2 (fun pe hpe => (h2.2 pe (List.mem_cons_of_mem b hpe)).1)
      have : prodOf ([] : List (Nat × Nat)) = 1 := rfl
      have hc : (1 : Nat) = b.1 ^ b.2 * prodOf t2 := by
        rw [← this, hprod]; rfl
      nlinarith
  | cons a t1 ih =>
    intro l2 h1 h2 hprod
    cases l2 with
    | nil =>
      exfalso
      have ha := (h1.2 a (List.mem_cons_self a t1)).1.two_le
      have he := (h1.2 a (List.mem_cons_self a t1)).2
      have hpow : 2 ≤ a.1 ^ a.2 := by
        calc 2 ≤ a.1 := ha
        _ = a.1 ^ 1 := (pow_one a.1).symm
        _ ≤ a.1 ^ a.2 := Nat.pow_le_pow_right (by omega) he
      have ht1 : 1 ≤ prodOf t1 :=
        prodOf_pos t1 (fun pe hpe => (h1.2 pe (List.mem_cons_of_mem a hpe)).1)
      have hc : a.1 ^ a.2 * prodOf t1 = 1 := hprod
      nlinarith
    | cons b t2 =>
      have hap := (h1.2 a (List.mem_cons_self a t1)).1
      have hbp := (h2.2 b (List.mem_cons_self b t2)).1
      have hprod2 : a.1 ^ a.2 * prodOf t1 = b.1 ^ b.2 * prodOf t2 := hprod
      have hae := (h1.2 a (List.mem_cons_self a t1)).2
      have hbe := (h2.2 b (List.mem_cons_self b t2)).2
      -- the heads carry the same prime
      have hab : a.1 = b.1 := by
        have hdvd1 : a.1 ∣ prodOf (b :: t2) := by
          have : a.1 ∣ prodOf (a :: t1) := by
            show a.1 ∣ a.1 ^ a.2 * prodOf t1
            exact Dvd.dvd.mul_right (dvd_pow_self a.1 (by omega)) _
          simpa [hprod] using (hprod ▸ this)
        have hmem1 := prime_dvd_prodOf hap (b :: t2)
          (fun pe hpe => by
            rcases List.mem_cons.mp hpe with rfl | hmem
            · exact hbp
            · exact (h2.2 pe (List.mem_cons_of_mem b hmem)).1)
          (by simpa using hdvd1)
        have hdvd2 : b.1 ∣ prodOf (a :: t1) := by
          have : b.1 ∣ prodOf (b :: t2) := by
            show b.1 ∣ b.1 ^ b.2 * prodOf t2
            exact Dvd.dvd.mul_right (dvd_pow_self b.1 (by omega)) _
          rw [hprod]; simpa using this
        have hmem2 := prime_dvd_prodOf hbp (a :: t1)
          (fun pe hpe => by
            rcases List.mem_cons.mp hpe with rfl | hmem
            · exact hap
            · exact (h1.2 pe (List.mem_cons_of_mem a hmem)).1)
          (by simpa using hdvd2)
        obtain ⟨pe1, hpe1, hppe1⟩ := hmem1
        obtain ⟨pe2, hpe2, hppe2⟩ := hmem2
        rcases List.mem_cons.mp hpe1 with rfl | hmem1t
        · exact hppe1
        · rcases List.mem_cons.mp hpe2 with rfl | hmem2t
          · exact hppe2.symm
          · -- a.1 is a tail prime of l2 and b.1 a tail prime of l1: contradiction
            have hgt1 : b.1 < pe1.1 := (List.pairwise_cons.mp h2.1).1 pe1 hmem1t
            have hgt2 : a.1 < pe2.1 := (List.pairwise_cons.mp h1.1).1 pe2 hmem2t
            omega
      -- equal head exponents, then recurse
      have hndvd1 : ¬ a.1 ∣ prodOf t1 := by
        apply not_dvd_prodOf hap t1
          (fun pe hpe => (h1.2 pe (List.mem_cons_of_mem a hpe)).1)
        intro pe hpe
        exact (List.pairwise_cons.mp h1.1).1 pe hpe
      have hndvd2 : ¬ a.1 ∣ prodOf t2 := by
        rw [hab]
        apply not_dvd_prodOf hbp t2
          (fun pe hpe => (h2.2 pe (List.mem_cons_of_mem b hpe)).1)
        intro pe hpe
        exact (List.pairwise_cons.mp h2.1).1 pe hpe
      have ha2 := hap.two_le
      have hee : a.2 = b.2 ∧ prodOf t1 = prodOf t2 := by
        rw [hab] at hprod2 hndvd1
        rcases Nat.lt_trichotomy a.2 b.2 with hlt | heq | hgt
        · exfalso
          apply hndvd1
          have hcancel : prodOf t1 = b.1 ^ (b.2 - a.2) * prodOf t2 := by
            have hpowpos : 0 < b.1 ^ a.2 := pow_pos (by omega) _
            apply Nat.eq_of_mul_eq_mul_left hpowpos
            calc b.1 ^ a.2 * prodOf t1 = b.1 ^ a.2 * prodOf t1 := rfl
            _ = b.1 ^ b.2 * prodOf t2 := hprod2
            _ = b.1 ^ a.2 * (b.1 ^ (b.2 - a.2) * prodOf t2) := by
                rw [← Nat.mul_assoc, ← pow_add]
                congr 2
                omega
          rw [hcancel]
          exact Dvd.dvd.mul_right (dvd_pow_self b.1 (by omega)) _
        · refine ⟨heq, ?_⟩
          rw [heq] at hprod2
          exact Nat.eq_of_mul_eq_mul_left (pow_pos (by omega) _) hprod2
        · exfalso
          apply hndvd2
          have hcancel : prodOf t2 = b.1 ^ (a.2 - b.2) * prodOf t1 := by
            have hpowpos : 0 < b.1 ^ b.2 := pow_pos (by omega) _
            apply Nat.eq_of_mul_eq_mul_left hpowpos
            calc b.1 ^ b.2 * prodOf t2 = b.1 ^ b.2 * prodOf t2 := rfl
            _ = b.1 ^ a.2 * prodOf t1 := hprod2.symm
            _ = b.1 ^ b.2 * (b.1 ^ (a.2 - b.2) * prodOf t1) := by
                rw [← Nat.mul_assoc, ← pow_add]
                congr 2
                omega
          rw [hab, hcancel]
          exact Dvd.dvd.mul_right (dvd_pow_self b.1 (by omega)) _
      have htail : t1 = t2 := by
        apply ih t2
        · exact ⟨(List.pairwise_cons.mp h1.1).2,
            fun pe hpe => h1.2 pe (List.mem_cons_of_mem a hpe)⟩
        · exact ⟨(List.pairwise_cons.mp h2.1).2,
            fun pe hpe => h2.2 pe (List.mem_cons_of_mem b hpe)⟩
        · exact hee.2
      have hhead : a = b := Prod.ext hab hee.1
      rw [hhead, htail]

/-- Factoring the product of a well-formed factor list recovers the list. -/
theorem factor_prodOf (l : List (Nat × Nat)) (hl : SortedFac l) :
    factor (prodOf l) = l := by
  have hpos : 1 ≤ prodOf l := prodOf_pos l (fun pe hpe => (hl.2 pe hpe).1)
  obtain ⟨hs, hp⟩ := factor_spec (prodOf l) hpos
  exact sortedFac_unique (factor (prodOf l)) l hs hl hp

/-- The peeling scan preserves the chunk product: payload times checksum
weight equals the product of the scanned factors. -/
theorem scanChecksum_prod : ∀ (fac : List (Nat × Nat)) (chk0 : Option Nat)
    (data0 : List (Nat × Nat)) (chk : Option Nat) (data : List (Nat × Nat)),
    scanChecksum fac chk0 data0 = .ok (chk, data) →
    prodOf data * chkWeight chk = prodOf data0 * chkWeight chk0 * prodOf fac := by
  intro fac
  induction fac with
  | nil =>
    intro chk0 data0 chk data h
    simp only [scanChecksum, Except.ok.injEq, Prod.mk.injEq] at h
    obtain ⟨h1, h2⟩ := h
    subst h1; subst h2
    simp [prodOf]
  | cons pe rest ih =>
    intro chk0 data0 chk data h
    obtain ⟨p, e⟩ := pe
    by_cases h6 : 6 ≤ e
    · cases chk0 with
      | none =>
        by_cases hz : e - 6 ≠ 0
        · have hs : scanChecksum ((p, e) :: rest) none data0 =
              scanChecksum rest (some p) (data0 ++ [(p, e - 6)]) := by
            simp [scanChecksum, h6, hz]
          rw [hs] at h
          have := ih (some p) (data0 ++ [(p, e - 6)]) chk data h
          rw [this, prodOf_append]
          show prodOf data0 * (p ^ (e-6) * 1) * p ^ 6 * prodOf rest =
            prodOf data0 * 1 * (p ^ e * prodOf rest)
          have hpe : p ^ (e-6) * p ^ 6 = p ^ e := by
            rw [← pow_add]; congr 1; omega
          calc prodOf data0 * (p ^ (e-6) * 1) * p ^ 6 * prodOf rest
              = prodOf data0 * (p ^ (e-6) * p ^ 6) * prodOf rest := by ring
          _ = prodOf data0 * p ^ e * prodOf rest := by rw [hpe]
          _ = prodOf data0 * 1 * (p ^ e * prodOf rest) := by ring
        · have hs : scanChecksum ((p, e) :: rest) none data0 =
              scanChecksum rest (some p) data0 := by
            simp [scanChecksum, h6, hz]
          rw [hs] at h
          have := ih (some p) data0 chk data h
          rw [this]
          have he6 : e = 6 := by omega
          show prodOf data0 * p ^ 6 * prodOf rest =
            prodOf data0 * 1 * (p ^ e * prodOf rest)
          rw [he6]; ring
      | some c =>
        by_cases hblk : p = BLOCK_TAG ∧ e = 7
        · have hs : scanChecksum ((p, e) :: rest) (some c) data0 =
              scanChecksum rest (some c) (data0 ++ [(p, e)]) := by
            simp [scanChecksum, h6, hblk]
          rw [hs] at h
          have := ih (some c) (data0 ++ [(p, e)]) chk data h
          rw [this, prodOf_append]
          show prodOf data0 * (p ^ e * 1) * c ^ 6 * prodOf rest =
            prodOf data0 * c ^ 6 * (p ^ e * prodOf rest)
          ring
        · have hs : scanChecksum ((p, e) :: rest) (some c) data0 =
              .error .duplicateChecksum := by
            simp [scanChecksum, h6, hblk]
          rw [hs] at h
          cases h
    · by_cases hz : e ≠ 0
      · have hs : scanChecksum ((p, e) :: rest) chk0 data0 =
            scanChecksum rest chk0 (data0 ++ [(p, e)]) := by
          simp [scanChecksum, h6, hz]
        rw [hs] at h
        have := ih chk0 (data0 ++ [(p, e)]) chk data h
        rw [this, prodOf_append]
        show prodOf data0 * (p ^ e * 1) * chkWeight chk0 * prodOf rest =
          prodOf data0 * chkWeight chk0 * (p ^ e * prodOf rest)
        ring
      · have hs : scanChecksum ((p, e) :: rest) chk0 data0 =
            scanChecksum rest chk0 data0 := by
          simp [scanChecksum, h6, hz]
        rw [hs] at h
        have := ih chk0 data0 chk data h
        rw [this]
        have he0 : e = 0 := by omega
        rw [he0]
        show prodOf data0 * chkWeight chk0 * prodOf rest =
          prodOf data0 * chkWeight chk0 * (p ^ 0 * prodOf rest)
        ring

set_option maxRecDepth 40000 in
/-- C2 (counterexample): the claim fails on `chunk_load(8)`.  There the
operand prime coincides with the opcode prime `OP_LOAD = 23` (index 8), the
exponents merge to `23 ^ 9` and the checksum prime is again 23, so the wire
integer is `23 ^ 15`; decoding recomputes the digest over the merged payload
`(23, 9)` as `8 · 9 = 72 ≠ 8` and raises a checksum mismatch instead of
succeeding. -/
theorem C2_counterexample :
    decodeSingle (chunk_load 8) = .error .checksumMismatch := by rfl

/-- C2 (amended): whenever single-chunk decoding succeeds, re-encoding the
decoded payload — multiplying the payload prime powers and attaching with
exponent 6 the prime indexed by the XOR over payload entries of
`prime_index · exponent` — reproduces the chunk integer exactly. -/
theorem C2_decode_reencode (c : Nat) (data : List (Nat × Nat))
    (h : decodeSingle c = .ok data) :
    attachChecksum (prodOf data) data = c := by
  unfold decodeSingle at h
  split at h
  · cases h
  · cases h
  · rename_i k data' heq
    by_cases hne : k ≠ nthPrime (xorOf data')
    · rw [if_pos hne] at h; cases h
    · rw [if_neg hne] at h
      injection h with hdd
      push_neg at hne
      rw [← hdd]
      have hprod := scanChecksum_prod (factor c) none [] (some k) data' heq
      have hc1 : 1 ≤ c := by
        rcases Nat.eq_zero_or_pos c with rfl | hpos
        · have hf0 : factor 0 = [] := by rfl
          rw [hf0] at heq
          simp [scanChecksum] at heq
        · exact hpos
      rw [(factor_spec c hc1).2] at hprod
      simp only [prodOf, List.foldr_nil, chkWeight, Nat.one_mul] at hprod
      unfold attachChecksum
      rw [← hne]
      exact hprod

/-- Witness for `C2_decode_reencode` at the concrete chunk `chunk_push 7`. -/
theorem C2_decode_reencode_witness :
    decodeSingle (chunk_push 7) = .ok [(2, 4), (19, 5)] ∧
      attachChecksum (prodOf [(2, 4), (19, 5)]) [(2, 4), (19, 5)] = chunk_push 7 :=
  ⟨by rfl, C2_decode_reencode (chunk_push 7) [(2, 4), (19, 5)] (by rfl)⟩

/-- The fuel of `decodeGo` is irrelevant as long as it covers the list
length. -/
theorem decodeGo_fuel : ∀ fuel1 fuel2 (l : List Nat), l.length ≤ fuel1 →
    l.length ≤ fuel2 → decodeGo fuel1 l = decodeGo fuel2 l := by
  intro fuel1
  induction fuel1 with
  | zero =>
    intro fuel2 l h1 h2
    match l, fuel2 with
    | [], 0 => rfl
    | [], f+1 => rfl
    | x :: r, _ => simp at h1
  | succ fuel ih =>
    intro fuel2 l h1 h2
    match l, fuel2 with
    | [], 0 => rfl
    | [], f+1 => rfl
    | x :: r, 0 => simp at h2
    | x :: r, f+1 =>
      show decodeGo (fuel+1) (x :: r) = decodeGo (f+1) (x :: r)
      simp only [decodeGo]
      cases decodeSingle x with
      | error e => rfl
      | ok data =>
        simp only []
        have hr : r.length ≤ fuel := by simpa using h1
        have hr2 : r.length ≤ f := by simpa using h2
        by_cases hb : data.any (fun pe => pe.1 = BLOCK_TAG ∧ pe.2 = 7)
        · rw [if_pos hb, if_pos hb]
          cases findLength BLOCK_TAG data with
          | none => rfl
          | some cnt =>
            dsimp only
            rw [ih f (r.take cnt) (by simp [List.length_take]; omega)
                (by simp [List.length_take]; omega),
              ih f (r.drop cnt) (by simp [List.length_drop]; omega)
                (by simp [List.length_drop]; omega)]
        · rw [if_neg hb, if_neg hb]
          by_cases hn : data.any (fun pe => pe.1 = NTT_TAG ∧ pe.2 = 4)
          · rw [if_pos hn, if_pos hn]
            cases findLength NTT_TAG data with
            | none => rfl
            | some cnt =>
              dsimp only
              rw [ih f (r.take cnt) (by simp [List.length_take]; omega)
                  (by simp [List.length_take]; omega),
                ih f (r.drop cnt) (by simp [List.length_drop]; omega)
                  (by simp [List.length_drop]; omega)]
          · rw [if_neg hn, if_neg hn, ih f r hr hr2]

/-! # Claim theorems -/

/-- C1: the claim reads that executing an instruction through a registered
JIT block preserves the interpreter's observable semantics; the spec states
this requirement explicitly, and the code breaks it.  The Python-fallback
block of `JITCompiler._compile_py` runs the handler before advancing the
IP and adds the block length afterwards, so a HALT instruction executed
through a registered block first sets the IP to the program length and then
gets it bumped past the end: the interpreter run of the one-instruction
HALT program terminates normally with no output, while the JIT run of the
same program raises a segmentation fault at IP 2. -/
theorem C1_jit_halt_divergence :
    runExec 2 [.mk [(OP_HALT, 4)] none] VM.fresh =
      some (.ok { VM.fresh with ip := 1, programLen := 1 } []) ∧
    runExecJit (fun i => if i = 0 then some [.mk [(OP_HALT, 4)] none] else none)
      3 [.mk [(OP_HALT, 4)] none] VM.fresh =
      some (.err (.segmentationFault 2) []) :=
  ⟨rfl, rfl⟩

/-- C6: the claim reads that garbage collection preserves every allocation
reachable from a root and frees exactly the unreachable ones; the code's
`_alloc_for_addr` resolves addresses through the shifted comparison
`start_page + i == page_for(addr)` over the absolute page numbers `i`, so
a root can resolve to the wrong allocation.  After three one-byte
allocations (starts 4096, 4352, 4608) a single stack root holding 4608 --
the start of the third allocation -- resolves to the second allocation
(page arithmetic: 1 + 1 = 2), so collection keeps the unreachable second
allocation and frees the directly referenced third one, clearing its
bytes. -/
theorem C6_gc_shifted_page_bug :
    ((tryAllocate SegmentedMemory.init 1).map (·.1) = some 4096) ∧
    ((tryAllocate gcMem1 1).map (·.1) = some 4352) ∧
    ((tryAllocate gcMem2 1).map (·.1) = some 4608) ∧
    gcMem3.allocations.map (·.1) = [4096, 4352, 4608] ∧
    allocForAddr gcMem3 4608 = some 4352 ∧
    (collect [4608] [] gcMem3).allocations.map (·.1) = [4352] ∧
    (collect [4608] [] gcMem3).heapMap.find? (fun kv => kv.1 = 4608) = none :=
  ⟨rfl, rfl, rfl, rfl, rfl, rfl, rfl⟩

theorem dispatch_div : dispatch OP_DIV = some opDiv := by rfl

theorem xorOf_block (n : Nat) :
    xorOf [(BLOCK_TAG, 7), (nthPrime n, 5)] = 21 ^^^ n * 5 := by
  unfold xorOf
  simp only [List.foldl_cons, List.foldl_nil]
  rw [show primeIdx BLOCK_TAG = 3 from by
      rw [show BLOCK_TAG = nthPrime 3 from rfl, primeIdx_nthPrime],
    primeIdx_nthPrime, Nat.zero_xor]

/-- C3 (counterexample): decoding `chunk_block_start(0)` fails.  The
attached checksum prime is `prime_21 = 79 > BLOCK_TAG`, so the factor scan
reaches `(BLOCK_TAG, 7)` first, consumes it as the checksum, and then
rejects the true checksum factor `79 ^ 6` as a duplicate checksum. -/
theorem C3_counterexample :
    decodeSingle (chunk_block_start 0) = .error .duplicateChecksum := by rfl

/-- C3 (amended): the factor `(BLOCK_TAG, 7)` of a BLOCK framing chunk is
treated as payload only when the attached checksum prime is smaller than
`BLOCK_TAG` (then it is consumed first by the ascending scan); in that case
single-chunk decoding succeeds with payload `[(BLOCK_TAG, 7), (prime_n, 5)]`.
For larger checksum primes `BLOCK_TAG ^ 7` itself is taken as the checksum
and decoding fails (see the counterexample). -/
theorem C3_block_payload (n : Nat)
    (h : nthPrime (21 ^^^ n * 5) < BLOCK_TAG) :
    decodeSingle (chunk_block_start n) = .ok [(BLOCK_TAG, 7), (nthPrime n, 5)] := by
  have hB7 : BLOCK_TAG = 7 := rfl
  have hx3 : 21 ^^^ n * 5 < 3 := by
    by_contra hge
    push_neg at hge
    have hmono := nthPrime_le_of_idx_le hge
    have h3 : nthPrime 3 = 7 := rfl
    omega
  have hn4 : 4 ≤ n := by
    by_contra hlt
    push_neg at hlt
    interval_cases n <;> exact absurd hx3 (by decide)
  have hchk7 : nthPrime (21 ^^^ n * 5) < 7 := by omega
  have hlp : 11 ≤ nthPrime n := by
    calc (11 : Nat) = nthPrime 4 := by rfl
    _ ≤ nthPrime n := nthPrime_le_of_idx_le hn4
  have hsorted : SortedFac [(nthPrime (21 ^^^ n * 5), 6), (7, 7), (nthPrime n, 5)] := by
    constructor
    · refine List.Pairwise.cons ?_ (List.Pairwise.cons ?_ (List.pairwise_singleton _ _))
      · intro pe hpe
        rcases List.mem_cons.mp hpe with rfl | hpe2
        · exact hchk7
        · rw [List.mem_singleton.mp hpe2]
          omega
      · intro pe hpe
        rw [List.mem_singleton.mp hpe]
        omega
    · intro pe hpe
      rcases List.mem_cons.mp hpe with rfl | hpe2
      · exact ⟨nthPrime_prime _, by omega⟩
      · rcases List.mem_cons.mp hpe2 with rfl | hpe3
        · exact ⟨by norm_num, by omega⟩
        · rw [List.mem_singleton.mp hpe3]
          exact ⟨nthPrime_prime n, by omega⟩
  have hprod : chunk_block_start n =
      prodOf [(nthPrime (21 ^^^ n * 5), 6), (7, 7), (nthPrime n, 5)] := by
    unfold chunk_block_start attachChecksum
    rw [xorOf_block]
    show BLOCK_TAG ^ 7 * nthPrime n ^ 5 * nthPrime (21 ^^^ n * 5) ^ 6 =
      nthPrime (21 ^^^ n * 5) ^ 6 * (7 ^ 7 * (nthPrime n ^ 5 * 1))
    rw [hB7]; ring
  have hscan : scanChecksum
      [(nthPrime (21 ^^^ n * 5), 6), (7, 7), (nthPrime n, 5)] none [] =
      .ok (some (nthPrime (21 ^^^ n * 5)), [(7, 7), (nthPrime n, 5)]) := by
    simp [scanChecksum, hB7]
  have hxor : xorOf [((7 : Nat), (7 : Nat)), (nthPrime n, 5)] = 21 ^^^ n * 5 := by
    rw [← hB7]
    exact xorOf_block n
  unfold decodeSingle
  rw [hprod, factor_prodOf _ hsorted, hscan]
  simp [hxor, hB7]

/-- Witness for `C3_block_payload` at `n = 4`, the one index whose checksum
prime (`prime_1 = 3`) is smaller than `BLOCK_TAG`. -/
theorem C3_block_payload_witness :
    nthPrime (21 ^^^ 4 * 5) < BLOCK_TAG ∧
      decodeSingle (chunk_block_start 4) = .ok [(BLOCK_TAG, 7), (nthPrime 4, 5)] :=
  ⟨by decide, C3_block_payload 4 (by decide)⟩

theorem xorOf_push (v : Nat) :
    xorOf [(OP_PUSH, 4), (nthPrime v, 5)] = v * 5 := by
  unfold xorOf
  simp only [List.foldl_cons, List.foldl_nil]
  rw [show primeIdx OP_PUSH = 0 from by
      rw [show OP_PUSH = nthPrime 0 from rfl, primeIdx_nthPrime],
    primeIdx_nthPrime, Nat.zero_xor, Nat.zero_mul, Nat.zero_xor]

/-- C4 (counterexample): there is no data-offset constant of at least 50:
for any such offset the PUSH chunk of value 0 would carry the fifth power
of a prime of index at least 50 (so at least 233), but `chunk_push(0)` is
the pure power of two `2 ^ 15 = 32768`. -/
theorem C4_counterexample :
    ¬ ∃ off, 50 ≤ off ∧ ∀ v, ∃ chk, chunk_push v =
      OP_PUSH ^ 4 * nthPrime (v + off) ^ 5 * chk ^ 6 := by
  rintro ⟨off, hoff, hall⟩
  obtain ⟨chk, heq⟩ := hall 0
  have hpv : chunk_push 0 = 32768 := by rfl
  rw [hpv] at heq
  have hq : nthPrime (0 + off) ∣ 2 ^ 15 := by
    refine ⟨OP_PUSH ^ 4 * nthPrime (0 + off) ^ 4 * chk ^ 6, ?_⟩
    rw [show ((2 : Nat) ^ 15) = 32768 from by norm_num, heq]
    show OP_PUSH ^ 4 * nthPrime (0 + off) ^ 5 * chk ^ 6 = _
    ring
  have hqp : Nat.Prime (nthPrime (0 + off)) := nthPrime_prime _
  have hq2 : nthPrime (0 + off) = 2 :=
    (Nat.prime_dvd_prime_iff_eq hqp Nat.prime_two).mp (hqp.dvd_of_dvd_pow hq)
  have h50 : (233 : Nat) ≤ nthPrime (0 + off) := by
    calc (233 : Nat) = nthPrime 50 := by rfl
    _ ≤ nthPrime (0 + off) := nthPrime_le_of_idx_le (by omega)
  omega

/-- C4 (amended): the data-offset is zero.  For every operand value `v` the
PUSH chunk is `opcode ^ 4 * prime_v ^ 5` times the checksum factor
`prime_{5v} ^ 6`; for `v ≥ 1` it decodes to the payload
`[(OP_PUSH, 4), (prime_v, 5)]`, and the PUSH handler pushes
`prime_index(operand)` with no offset subtracted. -/
theorem C4_push_no_offset :
    (∀ v, chunk_push v = OP_PUSH ^ 4 * nthPrime v ^ 5 * nthPrime (v * 5) ^ 6) ∧
    (∀ v, 1 ≤ v → decodeSingle (chunk_push v) = .ok [(OP_PUSH, 4), (nthPrime v, 5)]) ∧
    (∀ v (vm : VM), vm.stack.length < STACK_SIZE →
      opPush [(OP_PUSH, 4), (nthPrime v, 5)] vm =
        .ok ({ vm with stack := ((v : Int) :: vm.stack) }, [])) := by
  have hform : ∀ v, chunk_push v =
      OP_PUSH ^ 4 * nthPrime v ^ 5 * nthPrime (v * 5) ^ 6 := by
    intro v
    unfold chunk_push attachChecksum
    rw [xorOf_push]
  refine ⟨hform, ?_, ?_⟩
  · intro v hv
    have hO2 : OP_PUSH = 2 := rfl
    have hpv : 3 ≤ nthPrime v := by
      calc (3 : Nat) = nthPrime 1 := by rfl
      _ ≤ nthPrime v := nthPrime_le_of_idx_le hv
    have hvlt : nthPrime v < nthPrime (v * 5) :=
      nthPrime_strictMono (by omega)
    have hsorted : SortedFac [(OP_PUSH, 4), (nthPrime v, 5), (nthPrime (v * 5), 6)] := by
      constructor
      · refine List.Pairwise.cons ?_ (List.Pairwise.cons ?_ (List.pairwise_singleton _ _))
        · intro pe hpe
          rcases List.mem_cons.mp hpe with rfl | hpe2
          · rw [hO2]; omega
          · rw [List.mem_singleton.mp hpe2, hO2]; omega
        · intro pe hpe
          rw [List.mem_singleton.mp hpe]
          exact hvlt
      · intro pe hpe
        rcases List.mem_cons.mp hpe with rfl | hpe2
        · exact ⟨by rw [hO2]; exact Nat.prime_two, by omega⟩
        · rcases List.mem_cons.mp hpe2 with rfl | hpe3
          · exact ⟨nthPrime_prime v, by omega⟩
          · rw [List.mem_singleton.mp hpe3]
            exact ⟨nthPrime_prime _, by omega⟩
    have hprod : chunk_push v =
        prodOf [(OP_PUSH, 4), (nthPrime v, 5), (nthPrime (v * 5), 6)] := by
      rw [hform v]
      show OP_PUSH ^ 4 * nthPrime v ^ 5 * nthPrime (v * 5) ^ 6 =
        OP_PUSH ^ 4 * (nthPrime v ^ 5 * (nthPrime (v * 5) ^ 6 * 1))
      ring
    have hscan : scanChecksum
        [(OP_PUSH, 4), (nthPrime v, 5), (nthPrime (v * 5), 6)] none [] =
        .ok (some (nthPrime (v * 5)), [(OP_PUSH, 4), (nthPrime v, 5)]) := by
      simp [scanChecksum]
    unfold decodeSingle
    rw [hprod, factor_prodOf _ hsorted, hscan]
    simp [xorOf_push]
  · intro v vm hlen
    have hfind : findExp5 [(OP_PUSH, 4), (nthPrime v, 5)] = some (nthPrime v) := rfl
    unfold opPush
    rw [hfind]
    simp only [primeIdx_nthPrime]
    rw [if_neg (by
      simp only [List.length_cons]
      have hS : STACK_SIZE = 4096 := rfl
      omega)]

/-- Witness for `C4_push_no_offset` at `v = 3` on a fresh machine. -/
theorem C4_push_no_offset_witness :
    chunk_push 3 = OP_PUSH ^ 4 * nthPrime 3 ^ 5 * nthPrime (3 * 5) ^ 6 ∧
    decodeSingle (chunk_push 3) = .ok [(OP_PUSH, 4), (nthPrime 3, 5)] ∧
    opPush [(OP_PUSH, 4), (nthPrime 3, 5)] VM.fresh =
      .ok ({ VM.fresh with stack := [(3 : Int)] }, []) :=
  ⟨C4_push_no_offset.1 3, C4_push_no_offset.2.1 3 (by decide),
    C4_push_no_offset.2.2 3 VM.fresh (by decide)⟩

theorem decodeGo_nil (fuel : Nat) : decodeGo fuel [] = .ok [] := by
  cases fuel <;> rfl

theorem two_pow_twelve : (2 : ZMod 13) ^ 12 = 1 := by decide

theorem two_pow_eq_one_iff (k : Nat) : (2 : ZMod 13) ^ k = 1 ↔ 12 ∣ k := by
  constructor
  · intro h
    have hk : 12 * (k / 12) + k % 12 = k := Nat.div_add_mod k 12
    rw [← hk, pow_add, pow_mul, two_pow_twelve, one_pow, one_mul] at h
    have hr : k % 12 < 12 := Nat.mod_lt _ (by norm_num)
    have hfin : ∀ r : Fin 12, (2 : ZMod 13) ^ (r : Nat) = 1 → (r : Nat) = 0 := by decide
    have hz := hfin ⟨k % 12, hr⟩ h
    simp only [] at hz
    exact Nat.dvd_of_mod_eq_zero hz
  · rintro ⟨m, rfl⟩
    rw [pow_mul, two_pow_twelve, one_pow]

/-- The code's root cast into `ZMod 13`. -/
theorem nttRoot_cast (n : Nat) :
    ((nttRoot n : Nat) : ZMod 13) = (2 : ZMod 13) ^ (12 / n) := by
  unfold nttRoot NTT_ROOT
  have hT : T_MOD = 13 := rfl
  rw [hT]
  push_cast [ZMod.natCast_mod]
  rfl

theorem nttRoot_pow_n {n : Nat} (hdvd : n ∣ 12) :
    ((nttRoot n : Nat) : ZMod 13) ^ n = 1 := by
  rw [nttRoot_cast, ← pow_mul, Nat.div_mul_cancel hdvd, two_pow_twelve]

theorem nttRoot_pow_twelve (n : Nat) :
    ((nttRoot n : Nat) : ZMod 13) ^ 12 = 1 := by
  rw [nttRoot_cast, ← pow_mul, mul_comm, pow_mul, two_pow_twelve, one_pow]

theorem nttRoot_pow_eq_one_iff {n : Nat} (hn : 0 < n) (hdvd : n ∣ 12) (m : Nat) :
    ((nttRoot n : Nat) : ZMod 13) ^ m = 1 ↔ n ∣ m := by
  rw [nttRoot_cast, ← pow_mul, two_pow_eq_one_iff]
  have h12 : 12 / n * n = 12 := Nat.div_mul_cancel hdvd
  have hpos : 0 < 12 / n := Nat.div_pos (Nat.le_of_dvd (by norm_num) hdvd) hn
  constructor
  · intro h
    have hd : 12 / n * n ∣ 12 / n * m := by rwa [h12]
    exact (mul_dvd_mul_iff_left (by omega : 12 / n ≠ 0)).mp hd
  · intro h
    have hd : 12 / n * n ∣ 12 / n * m := mul_dvd_mul_left _ h
    rwa [h12] at hd

theorem pow_mod_exp {x : ZMod 13} {n : Nat} (hx : x ^ n = 1) (a : Nat) :
    x ^ (a % n) = x ^ a := by
  conv_rhs => rw [← Nat.div_add_mod a n, pow_add, pow_mul, hx, one_pow, one_mul]

theorem geom_sum_eq_zero {x : ZMod 13} {n : Nat} (hx : x ^ n = 1) (hx1 : x ≠ 1) :
    ∑ j ∈ Finset.range n, x ^ j = 0 := by
  have h := geom_sum_mul x n
  rw [hx, sub_self] at h
  rcases mul_eq_zero.mp h with h0 | h0
  · exact h0
  · exact absurd (by linear_combination h0 : x = 1) hx1

/-- Casting the accumulation loop of `_ntt` / `_intt` into `ZMod 13` turns
it into a plain character sum. -/
theorem nttAcc_enumFrom_cast (base n i : Nat) : ∀ (l : List Nat) (k acc : Nat),
    (((l.enumFrom k).foldl
        (fun acc jv => (acc + jv.2 * (base ^ ((i * jv.1) % n) % T_MOD)) % T_MOD) acc : Nat)
      : ZMod 13) =
      (acc : ZMod 13) + ∑ j ∈ Finset.range l.length,
        (l.getD j 0 : ZMod 13) * ((base : ZMod 13) ^ ((i * (k + j)) % n)) := by
  intro l
  induction l with
  | nil =>
    intro k acc
    simp [List.enumFrom]
  | cons x t ih =>
    intro k acc
    have hT : T_MOD = 13 := rfl
    show (((t.enumFrom (k+1)).foldl _ ((acc + x * (base ^ ((i * k) % n) % T_MOD)) % T_MOD) : Nat)
        : ZMod 13) = _
    rw [ih (k+1) ((acc + x * (base ^ ((i * k) % n) % T_MOD)) % T_MOD)]
    have hcast : (((acc + x * (base ^ ((i * k) % n) % T_MOD)) % T_MOD : Nat) : ZMod 13) =
        (acc : ZMod 13) + (x : ZMod 13) * ((base : ZMod 13) ^ ((i * k) % n)) := by
      rw [hT]
      push_cast [ZMod.natCast_mod]
      ring
    rw [hcast]
    simp only [List.length_cons]
    rw [Finset.sum_range_succ']
    have hS : (∑ j ∈ Finset.range t.length, (((x :: t).getD (j + 1) 0 : Nat) : ZMod 13) *
        (base : ZMod 13) ^ ((i * (k + (j + 1))) % n)) =
        ∑ j ∈ Finset.range t.length, ((t.getD j 0 : Nat) : ZMod 13) *
        (base : ZMod 13) ^ ((i * ((k + 1) + j)) % n) := by
      apply Finset.sum_congr rfl
      intro j _
      have he : k + (j + 1) = k + 1 + j := by omega
      rw [List.getD_cons_succ, he]
    rw [hS, List.getD_cons_zero, Nat.add_zero, add_assoc]
    congr 1
    exact add_comm _ _

/-- C10: when a BLOCK or NTT framing header declares `cnt` children but
fewer than `cnt` chunks remain after it, `decode` silently hands the header
all remaining chunks as children: Python's slice `chunks[ip : ip + cnt]`
truncates, the scan pointer jumps past the end, and no error is raised for
the shortfall. -/
theorem C10_truncated_framing (hdr : Nat) (d : List (Nat × Nat)) (cnt : Nat)
    (cs : List Nat)
    (hd : decodeSingle hdr = .ok d)
    (hfr : (blockFraming d = true ∧ findLength BLOCK_TAG d = some cnt) ∨
      (blockFraming d = false ∧ nttFraming d = true ∧
        findLength NTT_TAG d = some cnt))
    (hshort : cs.length < cnt) :
    decode (hdr :: cs) =
      match decode cs with
      | .error e => .error e
      | .ok inner => .ok [.mk d (some inner)] := by
  have htake : cs.take cnt = cs := List.take_of_length_le (by omega)
  have hdrop : cs.drop cnt = [] := List.drop_eq_nil_of_le (by omega)
  show decodeGo (cs.length + 1) (hdr :: cs) = _
  rcases hfr with ⟨hb, hl⟩ | ⟨hnb, hn, hl⟩
  · rw [show decodeGo (cs.length + 1) (hdr :: cs) =
        match decodeSingle hdr with
        | .error e => .error e
        | .ok data =>
          if data.any (fun pe => pe.1 = BLOCK_TAG ∧ pe.2 = 7) then
            match findLength BLOCK_TAG data with
            | none => .error .missingLength
            | some cnt2 =>
              match decodeGo cs.length (cs.take cnt2) with
              | .error e => .error e
              | .ok inner =>
                match decodeGo cs.length (cs.drop cnt2) with
                | .error e => .error e
                | .ok tail => .ok (.mk data (some inner) :: tail)
          else if data.any (fun pe => pe.1 = NTT_TAG ∧ pe.2 = 4) then
            match findLength NTT_TAG data with
            | none => .error .missingLength
            | some cnt2 =>
              match decodeGo cs.length (cs.take cnt2) with
              | .error e => .error e
              | .ok inner =>
                match decodeGo cs.length (cs.drop cnt2) with
                | .error e => .error e
                | .ok tail => .ok (.mk data (some inner) :: tail)
          else
            match decodeGo cs.length cs with
            | .error e => .error e
            | .ok tail => .ok (.mk data none :: tail)
      from rfl]
    rw [hd]
    dsimp only
    unfold blockFraming at hb
    rw [if_pos hb, hl]
    dsimp only
    rw [htake, hdrop]
    unfold decode
    cases hgo : decodeGo cs.length cs with
    | error e => rfl
    | ok inner => rw [decodeGo_nil]
  · rw [show decodeGo (cs.length + 1) (hdr :: cs) =
        match decodeSingle hdr with
        | .error e => .error e
        | .ok data =>
          if data.any (fun pe => pe.1 = BLOCK_TAG ∧ pe.2 = 7) then
            match findLength BLOCK_TAG data with
            | none => .error .missingLength
            | some cnt2 =>
              match decodeGo cs.length (cs.take cnt2) with
              | .error e => .error e
              | .ok inner =>
                match decodeGo cs.length (cs.drop cnt2) with
                | .error e => .error e
                | .ok tail => .ok (.mk data (some inner) :: tail)
          else if data.any (fun pe => pe.1 = NTT_TAG ∧ pe.2 = 4) then
            match findLength NTT_TAG data with
            | none => .error .missingLength
            | some cnt2 =>
              match decodeGo cs.length (cs.take cnt2) with
              | .error e => .error e
              | .ok inner =>
                match decodeGo cs.length (cs.drop cnt2) with
                | .error e => .error e
                | .ok tail => .ok (.mk data (some inner) :: tail)
          else
            match decodeGo cs.length cs with
            | .error e => .error e
            | .ok tail => .ok (.mk data none :: tail)
      from rfl]
    rw [hd]
    dsimp only
    unfold blockFraming at hnb
    unfold nttFraming at hn
    rw [if_neg (by rw [hnb]; exact Bool.false_ne_true), if_pos hn, hl]
    dsimp only
    rw [htake, hdrop]
    unfold decode
    cases hgo : decodeGo cs.length cs with
    | error e => rfl
    | ok inner => rw [decodeGo_nil]

/-- Witness for `C10_truncated_framing`: an NTT header declaring two
children followed by a single chunk (the bare checksum chunk `64`). -/
theorem C10_truncated_framing_witness :
    decodeSingle (chunk_ntt 2) = .ok [(5, 5), (11, 4)] ∧
      decode [chunk_ntt 2, 64] =
        .ok [.mk [(5, 5), (11, 4)] (some [.mk [] none])] := by
  constructor
  · rfl
  · have h := C10_truncated_framing (chunk_ntt 2) [(5, 5), (11, 4)] 2 [64]
      (by rfl) (Or.inr ⟨by rfl, by rfl, by rfl⟩) (by decide)
    rw [h]
    rfl

/-- C8: executing a DIV instruction at index `i` of the program, with at
least two values on the operand stack and the top value (the divisor)
equal to zero, raises DivisionByZero carrying exactly `i`, the IP of that
DIV instruction: the loop increments the IP before the handler runs and
the handler reports `self.ip - 1`. -/
theorem C8_div_zero_carries_ip (prog : List DecodedInstruction) (vm : VM)
    (fuel : Nat) (data : List (Nat × Nat)) (a : Int) (rest : List Int)
    (hip0 : 0 ≤ vm.ip) (hiplen : vm.ip < (prog.length : Int))
    (hinstr : (prog.getD vm.ip.toNat (.mk [] none)).data = data)
    (hnob : blockFraming data = false) (hnon : nttFraming data = false)
    (hop : findOp4 data = some OP_DIV)
    (hstack : vm.stack = 0 :: a :: rest) :
    runGo (fuel+1) prog vm = some (.err (.divisionByZero vm.ip) []) := by
  have hne : ¬ vm.ip = (prog.length : Int) := by omega
  have hrange : ¬ (vm.ip < 0 ∨ (prog.length : Int) < vm.ip) := by omega
  have hdiv : opDiv data { vm with ip := vm.ip + 1 } =
      .error (.divisionByZero vm.ip) := by
    have harith : vm.ip + 1 - 1 = vm.ip := by omega
    simp only [opDiv, popTwo, hstack, harith, if_true]
  simp only [runGo, if_neg hne, if_neg hrange, hinstr, hnob, hnon,
    Bool.false_eq_true, false_or, or_self, if_false, hop, dispatch_div, hdiv]

/-- Witness for `C8_div_zero_carries_ip`: a one-instruction DIV program and
the stack `[0, 5]` (top zero). -/
theorem C8_div_zero_carries_ip_witness :
    runGo 1 [.mk [(OP_DIV, 4)] none] { VM.fresh with stack := [0, 5] } =
      some (.err (.divisionByZero 0) []) := by
  have h := C8_div_zero_carries_ip [.mk [(OP_DIV, 4)] none]
    { VM.fresh with stack := [0, 5] } 0 [(OP_DIV, 4)] 5 []
    (by decide) (by decide) (by rfl) (by rfl) (by rfl) (by rfl) (by rfl)
  simpa using h

/-- C9: `chunk_push(0)` merges the opcode prime, the operand prime and the
checksum prime (all equal to 2) into the single integer `2 ^ 15 = 32768`;
decoding succeeds with the lone payload entry `(2, 9)`, which carries
neither an exponent-4 opcode nor an exponent-2-or-3 data entry, so the
interpreter raises the Bad-data error instead of pushing 0. -/
theorem C9_push_zero_bad_data :
    chunk_push 0 = 32768 ∧
    decodeSingle 32768 = .ok [(2, 9)] ∧
    findOp4 [(2, 9)] = none ∧
    ([(2, 9)] : List (Nat × Nat)).find? (fun pe => pe.2 = 2 ∨ pe.2 = 3) = none ∧
    runExec 2 [.mk [(2, 9)] none] VM.fresh = some (.err .badData []) :=
  ⟨rfl, rfl, rfl, rfl, rfl⟩

/-- `getD` of a map over `List.range` evaluates the function. -/
theorem getD_map_range (f : Nat → Nat) {n k : Nat} (hk : k < n) :
    (((List.range n).map f).getD k 0) = f k := by
  rw [List.getD_eq_getElem?_getD, List.getElem?_map, List.getElem?_range hk]
  rfl

/-- The cast of `nttAcc` into `ZMod 13` as a character sum. -/
theorem nttAcc_cast (base n i : Nat) (l : List Nat) :
    ((nttAcc base n i l : Nat) : ZMod 13) =
      ∑ j ∈ Finset.range l.length,
        (l.getD j 0 : ZMod 13) * ((base : ZMod 13) ^ ((i * j) % n)) := by
  have h := nttAcc_enumFrom_cast base n i l 0 0
  simpa [nttAcc, List.enum] using h

/-- The orthogonality index argument: for `i, j < n` with `n ∣ 12`, the
inverse-transform exponent `j + 11 i` is divisible by `n` exactly when
`j = i`. -/
theorem orth_index {n i j : Nat} (hdvd : n ∣ 12) (hi : i < n) (hj : j < n)
    (h : n ∣ j + 11 * i) : j = i := by
  obtain ⟨a, ha⟩ := (hdvd.mul_right i : n ∣ 12 * i)
  obtain ⟨b, hb⟩ := h
  have key : (j + 11 * i + i) % n = (j + 12 * i) % n := by
    have he : j + 11 * i + i = j + 12 * i := by ring
    rw [he]
  have e1 : (j + 11 * i + i) % n = i % n := by
    rw [hb, Nat.add_comm (n * b) i, Nat.add_mul_mod_self_left]
  have e2 : (j + 12 * i) % n = j % n := by
    rw [ha, Nat.add_mul_mod_self_left]
  rw [Nat.mod_eq_of_lt hi] at e1
  rw [Nat.mod_eq_of_lt hj] at e2
  exact (e1.symm.trans (key.trans e2)).symm

/-- The heart of the round-trip: entrywise over `ZMod 13`, applying the
inverse transform after the forward transform returns the original entry,
provided the region length divides 12. -/
theorem ntt_intt_entry {n : Nat} (hn : 0 < n) (hdvd : n ∣ 12) (v : List Nat)
    (hlen : v.length = n) {i : Nat} (hi : i < n) :
    (((intt n (nttRoot n) (ntt n (nttRoot n) v)).getD i 0 : Nat) : ZMod 13)
      = ((v.getD i 0 : Nat) : ZMod 13) := by
  have hT : T_MOD = 13 := rfl
  set ω : ZMod 13 := ((nttRoot n : Nat) : ZMod 13) with hω
  have hωn : ω ^ n = 1 := nttRoot_pow_n hdvd
  have hω12 : ω ^ 12 = 1 := nttRoot_pow_twelve n
  have hpow11n : (ω ^ 11) ^ n = 1 := by
    rw [← pow_mul, mul_comm, pow_mul, hωn, one_pow]
  have hXlen : (ntt n (nttRoot n) v).length = n := by simp [ntt]
  have hstep : (intt n (nttRoot n) (ntt n (nttRoot n) v)).getD i 0
      = nttAcc (nttRoot n ^ (T_MOD - 2) % T_MOD) n i (ntt n (nttRoot n) v)
          * (n ^ (T_MOD - 2) % T_MOD) % T_MOD := by
    unfold intt
    exact getD_map_range _ hi
  have hbase : ((nttRoot n ^ 11 % 13 : Nat) : ZMod 13) = ω ^ 11 := by
    push_cast [ZMod.natCast_mod]
    rw [hω]
  have hnne : ((n : Nat) : ZMod 13) ≠ 0 := by
    have hle : n ≤ 12 := Nat.le_of_dvd (by norm_num) hdvd
    intro h0
    have hv := ZMod.val_natCast_of_lt (show n < 13 by omega)
    rw [h0, ZMod.val_zero] at hv
    omega
  have hfermat : ((n : Nat) : ZMod 13) ^ 12 = 1 := by
    have hf := ZMod.pow_card_sub_one_eq_one hnne
    norm_num at hf
    exact hf
  have hXk : ∀ k, k < n → (((ntt n (nttRoot n) v).getD k 0 : Nat) : ZMod 13)
      = ∑ j ∈ Finset.range n, ((v.getD j 0 : Nat) : ZMod 13) * ω ^ (k * j) := by
    intro k hk
    have h1 : (ntt n (nttRoot n) v).getD k 0 = nttAcc (nttRoot n) n k v := by
      unfold ntt
      exact getD_map_range _ hk
    rw [h1, nttAcc_cast, hlen]
    apply Finset.sum_congr rfl
    intro j _
    rw [← hω, pow_mod_exp hωn]
  have hinner : ∀ j ∈ Finset.range n,
      ((v.getD j 0 : Nat) : ZMod 13) * ∑ k ∈ Finset.range n, (ω ^ (j + 11 * i)) ^ k
      = if j = i then ((v.getD j 0 : Nat) : ZMod 13) * ((n : Nat) : ZMod 13) else 0 := by
    intro j hj
    by_cases hji : j = i
    · rw [if_pos hji, hji]
      have hx1 : ω ^ (i + 11 * i) = 1 := by
        have h12 : i + 11 * i = 12 * i := by ring
        rw [h12, pow_mul, hω12, one_pow]
      rw [hx1]
      simp
    · rw [if_neg hji]
      have hxpow : (ω ^ (j + 11 * i)) ^ n = 1 := by
        rw [← pow_mul, mul_comm, pow_mul, hωn, one_pow]
      have hxne : ω ^ (j + 11 * i) ≠ 1 := by
        intro hone
        rw [hω] at hone
        have hd := (nttRoot_pow_eq_one_iff hn hdvd (j + 11 * i)).mp hone
        exact hji (orth_index hdvd hi (Finset.mem_range.mp hj) hd)
      rw [geom_sum_eq_zero hxpow hxne, mul_zero]
  have hsum : (∑ k ∈ Finset.range n,
        (((ntt n (nttRoot n) v).getD k 0 : Nat) : ZMod 13) *
          ((nttRoot n ^ 11 % 13 : Nat) : ZMod 13) ^ ((i * k) % n))
      = ∑ j ∈ Finset.range n, ((v.getD j 0 : Nat) : ZMod 13) *
          ∑ k ∈ Finset.range n, (ω ^ (j + 11 * i)) ^ k := by
    have h1 : ∀ k ∈ Finset.range n,
        (((ntt n (nttRoot n) v).getD k 0 : Nat) : ZMod 13) *
          ((nttRoot n ^ 11 % 13 : Nat) : ZMod 13) ^ ((i * k) % n)
        = ∑ j ∈ Finset.range n,
            ((v.getD j 0 : Nat) : ZMod 13) * ω ^ (k * j) * (ω ^ 11) ^ (i * k) := by
      intro k hk
      rw [hXk k (Finset.mem_range.mp hk), hbase, pow_mod_exp hpow11n,
        Finset.sum_mul]
    rw [Finset.sum_congr rfl h1, Finset.sum_comm]
    apply Finset.sum_congr rfl
    intro j _
    rw [Finset.mul_sum]
    apply Finset.sum_congr rfl
    intro k _
    rw [← pow_mul ω 11 (i * k), mul_assoc, ← pow_add, ← pow_mul ω (j + 11 * i) k]
    rw [show k * j + 11 * (i * k) = (j + 11 * i) * k from by ring]
  rw [hstep, hT]
  push_cast [ZMod.natCast_mod]
  rw [nttAcc_cast, hXlen, hsum]
  rw [Finset.sum_congr rfl hinner, Finset.sum_ite_eq', if_pos (Finset.mem_range.mpr hi)]
  have hn12 : ((n : Nat) : ZMod 13) * ((n : Nat) : ZMod 13) ^ 11 = 1 := by
    have h12 : ((n : Nat) : ZMod 13) * ((n : Nat) : ZMod 13) ^ 11
        = ((n : Nat) : ZMod 13) ^ 12 := by ring
    rw [h12, hfermat]
  rw [mul_assoc, hn12, mul_one]

/-- Pointwise `getD` equality of equal-length `List Nat` gives equality. -/
theorem ext_getD_nat : ∀ (l1 l2 : List Nat), l1.length = l2.length →
    (∀ i, i < l1.length → l1.getD i 0 = l2.getD i 0) → l1 = l2
  | [], [], _, _ => rfl
  | [], _ :: t2, h, _ => by
    simp only [List.length_nil, List.length_cons] at h
    omega
  | _ :: t1, [], h, _ => by
    simp only [List.length_nil, List.length_cons] at h
    omega
  | x :: t1, y :: t2, h, he => by
    have h0 := he 0 (by simp)
    simp only [List.getD_cons_zero] at h0
    have ht : t1 = t2 := ext_getD_nat t1 t2
      (by simpa using h)
      (fun i hi => by
        have hs := he (i + 1) (by simp only [List.length_cons]; omega)
        simpa [List.getD_cons_succ] using hs)
    rw [h0, ht]

/-- `getD` through the `% T_MOD` map. -/
theorem getD_map_mod : ∀ (v : List Nat) (i : Nat), i < v.length →
    (v.map (fun x => x % T_MOD)).getD i 0 = v.getD i 0 % T_MOD
  | [], i, h => absurd h (by simp)
  | _ :: _, 0, _ => rfl
  | _ :: t, i + 1, h =>
    getD_map_mod t i (by simp only [List.length_cons] at h; omega)

/-- C5: corrected.  The claim asserts the NTT round-trip
`NTT⁻¹(NTT(v)) = v mod 13` for every region length `N > 0`; with the
transform the code uses (root `NTT_ROOT ^ ((13 - 1) / N) % 13`), the
round-trip holds exactly when `N` divides 12 (so that the root has order
`N`): for every such region the inverse transform of the forward transform
returns the data vector reduced mod 13.  For other lengths the root's
order does not match and the round-trip fails (see the counterexample);
the interpreter in any case discards the transformed vector, so the
pre-pass never changes the program's output. -/
theorem C5_ntt_roundtrip (n : Nat) (v : List Nat) (hn : 0 < n) (hdvd : n ∣ 12)
    (hlen : v.length = n) :
    intt n (nttRoot n) (ntt n (nttRoot n) v) = v.map (fun x => x % T_MOD) := by
  have hT : T_MOD = 13 := rfl
  have hlen1 : (intt n (nttRoot n) (ntt n (nttRoot n) v)).length = n := by
    simp [intt]
  have hlen2 : (v.map (fun x => x % T_MOD)).length = n := by
    simp [hlen]
  apply ext_getD_nat _ _ (by rw [hlen1, hlen2])
  intro i hi0
  have hi : i < n := by rwa [hlen1] at hi0
  rw [hlen1] at hi0
  rw [getD_map_mod v i (by rw [hlen]; exact hi)]
  have hentry := ntt_intt_entry hn hdvd v hlen hi
  have hmod : (intt n (nttRoot n) (ntt n (nttRoot n) v)).getD i 0 % 13
      = v.getD i 0 % 13 := by
    have h1 := congrArg ZMod.val hentry
    rwa [ZMod.val_natCast, ZMod.val_natCast] at h1
  have hlt : (intt n (nttRoot n) (ntt n (nttRoot n) v)).getD i 0 < 13 := by
    have h2 : (intt n (nttRoot n) (ntt n (nttRoot n) v)).getD i 0
        = nttAcc (nttRoot n ^ (T_MOD - 2) % T_MOD) n i (ntt n (nttRoot n) v)
            * (n ^ (T_MOD - 2) % T_MOD) % T_MOD := by
      unfold intt
      exact getD_map_range _ hi
    rw [h2, hT]
    exact Nat.mod_lt _ (by norm_num)
  rw [hT, ← hmod, Nat.mod_eq_of_lt hlt]

/-- Witness for `C5_ntt_roundtrip`: the six-element vector
`[1, 2, 3, 4, 5, 6]` (6 divides 12) round-trips. -/
theorem C5_ntt_roundtrip_witness :
    0 < 6 ∧ (6 : Nat) ∣ 12 ∧ ([1, 2, 3, 4, 5, 6] : List Nat).length = 6 ∧
      intt 6 (nttRoot 6) (ntt 6 (nttRoot 6) [1, 2, 3, 4, 5, 6]) =
        [1, 2, 3, 4, 5, 6].map (fun x => x % T_MOD) :=
  ⟨by decide, by decide, by decide,
    C5_ntt_roundtrip 6 [1, 2, 3, 4, 5, 6] (by decide) (by decide) (by decide)⟩

/-- Counterexample to C5 as claimed: for the five-child region (length 5
does not divide 12) with data vector `[1, 0, 0, 0, 0]` — whose entries are
already reduced mod 13 — the inverse transform of the forward transform
does not return the vector. -/
theorem C5_counterexample :
    intt 5 (nttRoot 5) (ntt 5 (nttRoot 5) [1, 0, 0, 0, 0]) ≠
      [1, 0, 0, 0, 0].map (fun x => x % T_MOD) := by decide

theorem dispatch_push : dispatch OP_PUSH = some opPush := by rfl

theorem dispatch_input : dispatch OP_INPUT = some opInput := by rfl

/-- The success branch of `opPush`: with an operand present and the stack
strictly below `STACK_SIZE`, the handler pushes `prime_index(p)`. -/
theorem opPush_ok (data : List (Nat × Nat)) (p : Nat) (vm : VM)
    (hfind : findExp5 data = some p)
    (hlen : vm.stack.length < STACK_SIZE) :
    opPush data vm =
      .ok ({ vm with stack := (primeIdx p : Int) :: vm.stack }, []) := by
  simp only [opPush, hfind]
  rw [if_neg (by simp only [List.length_cons]; omega)]

/-- `getD` inside the replicate prefix of `overflowProg`-style lists. -/
theorem getD_replicate_append : ∀ (n j : Nat), j < n →
    ∀ (a b : DecodedInstruction) (l : List DecodedInstruction),
    (List.replicate n a ++ l).getD j b = a
  | 0, j, hj, _, _, _ => absurd hj (Nat.not_lt_zero j)
  | _ + 1, 0, _, _, _, _ => rfl
  | n + 1, j + 1, hj, a, b, l =>
    getD_replicate_append n j (Nat.lt_of_succ_lt_succ hj) a b l

/-- `getD` at the position right after the replicate prefix. -/
theorem getD_replicate_append_at : ∀ (n : Nat) (a b c : DecodedInstruction),
    (List.replicate n a ++ [c]).getD n b = c
  | 0, _, _, _ => rfl
  | n + 1, a, b, c => getD_replicate_append_at n a b c

/-- One successful dispatch step of the interpreter loop. -/
theorem runGo_step_ok (prog : List DecodedInstruction) (fuel j : Nat)
    (vm vm2 : VM) (data : List (Nat × Nat)) (op : Nat) (out : List String)
    (h : List (Nat × Nat) → VM → Except VMErr (VM × List String))
    (hip : vm.ip = (j : Int))
    (hjlen : j < prog.length)
    (hinstr : (prog.getD j (.mk [] none)).data = data)
    (hnob : blockFraming data = false) (hnon : nttFraming data = false)
    (hop : findOp4 data = some op)
    (hdisp : dispatch op = some h)
    (hh : h data { vm with ip := (j : Int) + 1 } = .ok (vm2, out)) :
    runGo (fuel + 1) prog vm =
      (runGo fuel prog vm2).map (fun r => r.prepend out) := by
  have hne : ¬ vm.ip = (prog.length : Int) := by rw [hip]; omega
  have hrange : ¬ (vm.ip < 0 ∨ (prog.length : Int) < vm.ip) := by
    rw [hip]; omega
  have htn : vm.ip.toNat = j := by rw [hip]; omega
  have hvm1 : { vm with ip := vm.ip + 1 } = { vm with ip := (j : Int) + 1 } := by
    rw [hip]
  simp only [runGo, if_neg hne, if_neg hrange, htn, hinstr, hnob, hnon,
    Bool.false_eq_true, false_or, or_self, if_false, hop, hdisp, hvm1, hh]
  cases runGo fuel prog vm2 with
  | none => rfl
  | some r => rfl

/-- The loop accepts a state whose IP sits exactly at the program end. -/
theorem runGo_halt (prog : List DecodedInstruction) (fuel : Nat) (vm : VM)
    (hip : vm.ip = (prog.length : Int)) :
    runGo (fuel + 1) prog vm = some (.ok vm []) := by
  simp only [runGo, if_pos hip]

/-- Running the tail of `overflowProg` from the state reached after `j`
pushes: the remaining `4096 - j` pushes all succeed (the bound check
passes), then the INPUT instruction pushes a 4097th value with no check at
all, and the loop halts normally. -/
theorem overflow_run : ∀ (d : Nat), ∀ (j : Nat), j + d = 4096 →
    runGo (d + 2) overflowProg
      { VM.fresh with
          ip := (j : Int)
          stack := List.replicate j (1 : Int)
          programLen := 4097 } =
      some (.ok { VM.fresh with
          ip := (4097 : Int)
          stack := (0 : Int) :: List.replicate 4096 (1 : Int)
          programLen := 4097 } []) := by
  intro d
  induction d with
  | zero =>
    intro j hj
    have hj0 : j = 4096 := by omega
    subst hj0
    have hlen47 : overflowProg.length = 4097 := by
      show (List.replicate STACK_SIZE pushOne ++ [inputInstr]).length = 4097
      rw [List.length_append, List.length_replicate]
      rfl
    have hinstr2 : (overflowProg.getD 4096 (.mk [] none)).data
        = [(OP_INPUT, 4)] :=
      congrArg DecodedInstruction.data
        (getD_replicate_append_at STACK_SIZE pushOne (.mk [] none) inputInstr)
    have hh : opInput [(OP_INPUT, 4)]
        { VM.fresh with
            ip := ((4096 : Nat) : Int) + 1
            stack := List.replicate 4096 (1 : Int)
            programLen := 4097 } =
        .ok ({ VM.fresh with
            ip := ((4096 : Nat) : Int) + 1
            stack := (0 : Int) :: List.replicate 4096 (1 : Int)
            programLen := 4097 }, []) := rfl
    show runGo (1 + 1) overflowProg
        { VM.fresh with
            ip := ((4096 : Nat) : Int)
            stack := List.replicate 4096 (1 : Int)
            programLen := 4097 } = _
    rw [runGo_step_ok overflowProg 1 4096
        { VM.fresh with
            ip := ((4096 : Nat) : Int)
            stack := List.replicate 4096 (1 : Int)
            programLen := 4097 }
        { VM.fresh with
            ip := ((4096 : Nat) : Int) + 1
            stack := (0 : Int) :: List.replicate 4096 (1 : Int)
            programLen := 4097 }
        [(OP_INPUT, 4)] OP_INPUT [] opInput
        rfl (by rw [hlen47]; omega) hinstr2 (by rfl) (by rfl) rfl
        dispatch_input hh]
    rw [runGo_halt overflowProg 0
        { VM.fresh with
            ip := ((4096 : Nat) : Int) + 1
            stack := (0 : Int) :: List.replicate 4096 (1 : Int)
            programLen := 4097 }
        (by show ((4096 : Nat) : Int) + 1 = (overflowProg.length : Int)
            rw [hlen47]
            omega)]
    rfl
  | succ d ih =>
    intro j hj
    have h4 : STACK_SIZE = 4096 := rfl
    have hjS : j < STACK_SIZE := by omega
    have hlen47 : overflowProg.length = 4097 := by
      show (List.replicate STACK_SIZE pushOne ++ [inputInstr]).length = 4097
      rw [List.length_append, List.length_replicate]
      rfl
    have hinstr2 : (overflowProg.getD j (.mk [] none)).data
        = [(OP_PUSH, 4), (3, 5)] := by
      show ((List.replicate STACK_SIZE pushOne ++ [inputInstr]).getD j
        (.mk [] none)).data = _
      rw [getD_replicate_append STACK_SIZE j hjS pushOne (.mk [] none)
        [inputInstr]]
      rfl
    have hh : opPush [(OP_PUSH, 4), (3, 5)]
        { VM.fresh with
            ip := (j : Int) + 1
            stack := List.replicate j (1 : Int)
            programLen := 4097 } =
        .ok ({ VM.fresh with
            ip := ((j + 1 : Nat) : Int)
            stack := List.replicate (j + 1) (1 : Int)
            programLen := 4097 }, []) := by
      have hlt : (List.replicate j (1 : Int)).length < STACK_SIZE := by
        rw [List.length_replicate]
        omega
      rw [opPush_ok [(OP_PUSH, 4), (3, 5)] 3 _ rfl hlt]
      dsimp only
      rw [(by omega : ((j : Int)) + 1 = ((j + 1 : Nat) : Int))]
      rfl
    show runGo ((d + 2) + 1) overflowProg
        { VM.fresh with
            ip := (j : Int)
            stack := List.replicate j (1 : Int)
            programLen := 4097 } = _
    rw [runGo_step_ok overflowProg (d + 2) j
        { VM.fresh with
            ip := (j : Int)
            stack := List.replicate j (1 : Int)
            programLen := 4097 }
        { VM.fresh with
            ip := ((j + 1 : Nat) : Int)
            stack := List.replicate (j + 1) (1 : Int)
            programLen := 4097 }
        [(OP_PUSH, 4), (3, 5)] OP_PUSH [] opPush
        rfl (by rw [hlen47]; omega) hinstr2 (by rfl) (by rfl) rfl
        dispatch_push hh]
    rw [ih (j + 1) (by omega)]
    rfl

/-- C7: corrected.  The claim reads that every instruction that would push
the operand stack past the stack-segment size raises StackOverflow.  The
PUSH handler does enforce the bound: it succeeds exactly when the stack
holds fewer than `STACK_SIZE` values before the push (leaving at most
`STACK_SIZE` afterwards) and raises StackOverflow (carrying the
instruction's IP) otherwise.  But PUSH is the only handler with this
check: INPUT and the other value-producing handlers push unconditionally,
so the claimed invariant fails (see the counterexample). -/
theorem C7_stack_bound (data : List (Nat × Nat)) (p : Nat) (vm : VM)
    (hfind : findExp5 data = some p) :
    (vm.stack.length < STACK_SIZE →
      opPush data vm = .ok ({ vm with stack := (primeIdx p : Int) :: vm.stack }, []) ∧
      ((primeIdx p : Int) :: vm.stack).length ≤ STACK_SIZE) ∧
    (STACK_SIZE ≤ vm.stack.length →
      opPush data vm = .error (.stackOverflow (vm.ip - 1))) := by
  constructor
  · intro hlt
    refine ⟨opPush_ok data p vm hfind hlt, ?_⟩
    simp only [List.length_cons]
    omega
  · intro hge
    simp only [opPush, hfind]
    rw [if_pos (by simp only [List.length_cons]; omega)]

/-- Witness for `C7_stack_bound`: PUSH with operand prime 3 succeeds on the
empty stack and raises StackOverflow on a stack of `STACK_SIZE` zeros. -/
theorem C7_stack_bound_witness :
    opPush [(2, 4), (3, 5)] VM.fresh =
      .ok ({ VM.fresh with stack := [(1 : Int)] }, []) ∧
    opPush [(2, 4), (3, 5)]
        { VM.fresh with stack := List.replicate STACK_SIZE (0 : Int) } =
      .error (.stackOverflow
        ({ VM.fresh with stack := List.replicate STACK_SIZE (0 : Int) }.ip - 1)) := by
  have h1 := (C7_stack_bound [(2, 4), (3, 5)] 3 VM.fresh rfl).1 (by decide)
  have h2 := (C7_stack_bound [(2, 4), (3, 5)] 3
    { VM.fresh with stack := List.replicate STACK_SIZE (0 : Int) } rfl).2
    (by simp)
  exact ⟨h1.1, h2⟩

/-- Counterexample to C7 as claimed: the program of `STACK_SIZE` = 4096
PUSH instructions followed by one INPUT runs to completion from a fresh
VM — the INPUT handler performs no bound check — and leaves 4097 values on
the operand stack, exceeding the stack-segment size. -/
theorem C7_counterexample :
    runExec 4098 overflowProg VM.fresh =
      some (.ok { VM.fresh with
          ip := (4097 : Int)
          stack := (0 : Int) :: List.replicate 4096 (1 : Int)
          programLen := 4097 } []) ∧
    STACK_SIZE < ((0 : Int) :: List.replicate 4096 (1 : Int)).length := by
  constructor
  · have hlen47 : overflowProg.length = 4097 := by
      show (List.replicate STACK_SIZE pushOne ++ [inputInstr]).length = 4097
      rw [List.length_append, List.length_replicate]
      rfl
    show runGo 4098 overflowProg
        { VM.fresh with ip := (0 : Int), programLen := overflowProg.length } = _
    rw [hlen47]
    exact overflow_run 4096 0 rfl
  · rw [List.length_cons, List.length_replicate]
    decide

end UOR
